import Mathlib

/-!
Verification of the message consolidation engine of `src/main.py`
(a Telegram draft/squash userbot).

The embedding models a conversation as a chronological list of messages
(oldest first, backend message identifiers strictly increasing).  The
backend's reverse-chronological history fetch (`client.iter_messages`)
is the reverse of that list, filtered by the requested author and cut to
the requested limit.  Handler bodies are translated into pure functions
that either return the list of backend mutation calls they would issue
(edit / delete traces) or the resulting conversation state.  Python
strings are sequences of code points, so string operations
(`str.endswith`, slicing, `len`, `str.join`) are modelled on the
underlying `List Char` of a Lean `String`.
-/

/-- Marker suffix for open autosquash chains (src/main.py line 23). -/
def MARKER : String := "\n>_"

/-- Snapshot of a backend message, with the fields the engine reads:
identifier, author-is-local flag (`message.out`), text, media flag and
forward flag (src/main.py lines 37-39 and the event fields used). -/
structure Message where
  id : Nat
  out : Bool
  text : String
  media : Bool
  fwdFrom : Bool
deriving DecidableEq, Repr

/-- Python `s.endswith(suffixStr)` at code-point level. -/
def strEndsWith (s suffixStr : String) : Bool :=
  suffixStr.data.isSuffixOf s.data

/-- Python `s.startswith(pre)` at code-point level. -/
def strStartsWith (s pre : String) : Bool :=
  pre.data.isPrefixOf s.data

/-- Python `txt[:-len(MARKER)]`: drop the last `len(MARKER)` code points
(src/main.py lines 47, 130 and 225). -/
def cutMarker (t : String) : String :=
  String.mk (t.data.take (t.data.length - MARKER.data.length))

/-- Check for the marker suffix, `txt.endswith(MARKER)`
(src/main.py lines 46, 129 and 211). -/
def hasMarker (t : String) : Bool :=
  strEndsWith t MARKER

/-- The marker-cleanup step of `squash_handler` (src/main.py lines
128-131): remove the marker suffix if present, else keep the text.
The spec calls this operation `stripMarker`. -/
def stripMarker (t : String) : String :=
  if hasMarker t then cutMarker t else t

/-- Python `"\n".join(texts)` (src/main.py line 135). -/
def joinTexts : List String → String
  | [] => ""
  | [t] => t
  | t :: t' :: rest => t ++ "\n" ++ joinTexts (t' :: rest)

/-- `is_plain_text` (src/main.py lines 37-39): strictly plain text,
no media, no forward, text non-empty. -/
def is_plain_text (m : Message) : Bool :=
  m.text != "" && !m.media && !m.fwdFrom

/-- The command filter at the top of `autosquash_watcher`
(src/main.py line 173): `event.text.startswith('!squash') or
event.text.lower().startswith('!autosquash')`. -/
def isCommandText (t : String) : Bool :=
  strStartsWith t "!squash" ||
    strStartsWith (String.mk (t.data.map Char.toLower)) "!autosquash"

/-- A mutation call issued to the backend: `msg.edit(text)` or
`client.delete_messages(chat, ids)`. -/
inductive Call where
  | edit : Nat → String → Call
  | delete : List Nat → Call
deriving DecidableEq, Repr

/-- Backend edit: replace the text of the message with the given id. -/
def editMessage (chat : List Message) (i : Nat) (t : String) : List Message :=
  chat.map fun m => if m.id = i then { m with text := t } else m

/-- Backend batched delete: remove all messages whose id is listed. -/
def deleteMessages (chat : List Message) (ids : List Nat) : List Message :=
  chat.filter fun m => !ids.contains m.id

/-- Apply one backend call to a conversation state. -/
def applyCall (chat : List Message) : Call → List Message
  | Call.edit i t => editMessage chat i t
  | Call.delete ids => deleteMessages chat ids

/-- Apply a trace of backend calls in order. -/
def applyCalls (chat : List Message) (cs : List Call) : List Message :=
  cs.foldl applyCall chat

/-- `client.iter_messages(chat, from_user='me'?, limit, offset_id)`:
messages strictly older than `offsetId`, optionally only the local
user's, newest first, at most `limit` of them. -/
def iterMessages (chat : List Message) (offsetId : Nat) (fromMe : Bool)
    (limit : Nat) : List Message :=
  ((chat.filter fun m => decide (m.id < offsetId) && (!fromMe || m.out)).reverse).take limit

/-- The single message immediately preceding id `i`
(src/main.py lines 201-204: `iter_messages(..., limit=1, offset_id=event.id)`). -/
def prevMessage (chat : List Message) (i : Nat) : Option Message :=
  (iterMessages chat i false 1).head?

/-- Text of the message with id `i`, if present. -/
def textOf (chat : List Message) (i : Nat) : Option String :=
  (chat.find? fun m => m.id == i).map fun m => m.text

/-- The marker test of `strip_marker_from_last_message`
(src/main.py line 46): `msg.text and msg.text.endswith(MARKER)`. -/
def markedPred (m : Message) : Bool :=
  m.text != "" && hasMarker m.text

/-- The scan window of `strip_marker_from_last_message`
(src/main.py line 45): the ten most recent locally-authored messages,
newest first (`iter_messages(chat_id, from_user='me', limit=10)`). -/
def markedWindow (chat : List Message) : List Message :=
  ((chat.filter fun m => m.out).reverse).take 10

/-- The message `strip_marker_from_last_message` would edit: the most
recent marked one inside the scan window (src/main.py lines 45-53). -/
def findMarked (chat : List Message) : Option Message :=
  (markedWindow chat).find? markedPred

/-- Calls issued by `strip_marker_from_last_message`
(src/main.py lines 41-53): edit the found message to its text without
the marker, else nothing. -/
def stripCalls (chat : List Message) : List Call :=
  match findMarked chat with
  | some m => [Call.edit m.id (cutMarker m.text)]
  | none => []

/-- State effect of `strip_marker_from_last_message`. -/
def strip_marker_from_last_message (chat : List Message) : List Message :=
  applyCalls chat (stripCalls chat)

/-- Message collection phase of `squash_handler` (src/main.py lines
96-115), newest first.  Strict mode (count given): the `n` most recent
locally-authored messages before the command
(`iter_messages(chat, from_user='me', limit=n, offset_id=event.id)`),
aborting (`none`) when the count is below one or any collected message
is not plain text.  Smart mode: walk the last 100 messages before the
command, newest first, while they are outgoing plain text. -/
def collectMessages (chat : List Message) (cmdId : Nat) (nArg : Option Nat) :
    Option (List Message) :=
  match nArg with
  | some n =>
    if n < 1 then none
    else
      let window := iterMessages chat cmdId true n
      if window.all is_plain_text then some window else none
  | none =>
    some ((iterMessages chat cmdId false 100).takeWhile fun m => m.out && is_plain_text m)

/-- The combined text built by `squash_handler` (src/main.py lines
122-135): reverse to chronological order, strip marker suffixes, join
with newlines. -/
def combinedOf (collected : List Message) : String :=
  joinTexts ((collected.reverse).map fun m => stripMarker m.text)

/-- Tail of `squash_handler` after collection (src/main.py lines
117-153), as the trace of backend calls it issues.  `collected` is
newest first, as produced by `collectMessages`. -/
def squashCollected (dryRun : Bool) (collected : List Message) (cmdId : Nat) :
    List Call :=
  match collected.reverse with
  | [] => if dryRun then [] else [Call.delete [cmdId]]
  | target :: rest =>
    let combined := combinedOf collected
    if 4096 < combined.length then
      if dryRun then [] else [Call.delete [cmdId]]
    else if dryRun then []
    else
      (if combined = target.text then [] else [Call.edit target.id combined]) ++
        [Call.delete ((rest.map fun m => m.id) ++ [cmdId])]

/-- Whole `!squash` command handler (src/main.py lines 87-156) as the
trace of backend calls it issues.  `chat` is the conversation including
the command message, whose id is `cmdId`; `nArg` is the parsed optional
count.  Abort paths (count below one, strict-mode ineligibility, empty
collection, length limit) delete only the command message in live mode
and issue nothing in dry-run mode. -/
def squash_handler (dryRun : Bool) (chat : List Message) (cmdId : Nat)
    (nArg : Option Nat) : List Call :=
  match collectMessages chat cmdId nArg with
  | none => if dryRun then [] else [Call.delete [cmdId]]
  | some collected => squashCollected dryRun collected cmdId

/-- `incoming_boundary_handler` (src/main.py lines 159-167) as the
trace of backend calls it issues.  The source consults only
`AUTOSQUASH_ENABLED`; the dry-run flag is never read there. -/
def incoming_boundary_handler (enabled : Bool) (chat : List Message) : List Call :=
  if !enabled then [] else stripCalls chat

/-- The combined text of an autosquash merge (src/main.py lines
225-227): stripped predecessor text, newline, new text, marker. -/
def mergedText (prevText evText : String) : String :=
  cutMarker prevText ++ "\n" ++ evText ++ MARKER

/-- `autosquash_watcher` (src/main.py lines 170-258) as the trace of
backend calls it issues when every call succeeds.  `chat` is the
conversation including the new outgoing message `ev` (the event fires
after the message exists in the backend). -/
def autosquash_watcher (enabled dryRun : Bool) (chat : List Message)
    (ev : Message) : List Call :=
  if isCommandText ev.text then []
  else if !enabled then []
  else if dryRun then []
  else if !(is_plain_text ev) then stripCalls chat
  else
    match prevMessage chat ev.id with
    | some prev =>
      if prev.out && is_plain_text prev then
        if hasMarker prev.text then
          let combined := mergedText prev.text ev.text
          if combined.length ≤ 4096 then
            [Call.edit prev.id combined, Call.delete [ev.id]]
          else
            [Call.edit prev.id (cutMarker prev.text),
             Call.edit ev.id (ev.text ++ MARKER)]
        else [Call.edit ev.id (ev.text ++ MARKER)]
      else [Call.edit ev.id (ev.text ++ MARKER)]
    | none => [Call.edit ev.id (ev.text ++ MARKER)]

/-- A backend call attempt that may fail (modelling a rejected edit or
delete or a transient I/O failure). -/
def tryCall (fails : Bool) (chat : List Message) (c : Call) :
    Except String (List Message) :=
  if fails then Except.error "backend call failed" else Except.ok (applyCall chat c)

/-- The fallback of a failed merge (src/main.py lines 237-240): try to
mark the new message as the start of a fresh chain, swallowing a
failure of that edit as well (`except: pass`). -/
def fallbackNewChain (failsMark : Bool) (chat : List Message) (ev : Message) :
    List Message :=
  match tryCall failsMark chat (Call.edit ev.id (ev.text ++ MARKER)) with
  | Except.ok c => c
  | Except.error _ => chat

/-- The merge attempt of `autosquash_watcher` with failure injection
(src/main.py lines 230-240): try editing the predecessor to the merged
text then deleting the new message; on either failure, fall back to
starting a fresh chain at the new message. -/
def autosquashMergeExec (failsEdit failsDelete failsMark : Bool)
    (chat : List Message) (prev ev : Message) : Except String (List Message) :=
  match tryCall failsEdit chat (Call.edit prev.id (mergedText prev.text ev.text)) with
  | Except.ok c1 =>
    match tryCall failsDelete c1 (Call.delete [ev.id]) with
    | Except.ok c2 => Except.ok c2
    | Except.error _ => Except.ok (fallbackNewChain failsMark c1 ev)
  | Except.error _ => Except.ok (fallbackNewChain failsMark chat ev)

/-- Status reply of `!autosquash off` (src/main.py line 77). -/
def STATUS_OFF : String := "`Autosquash Disabled.`"

/-- Status reply of `!autosquash on` (src/main.py line 73). -/
def STATUS_ON : String := "`Autosquash Enabled. New messages will be merged.`"

/-- State transition for an outgoing message while autosquash is
enabled in live mode: the message is appended by the send, then
`autosquash_watcher` runs on the updated conversation. -/
def outgoingStep (chat : List Message) (ev : Message) : List Message :=
  applyCalls (chat ++ [ev]) (autosquash_watcher true false (chat ++ [ev]) ev)

/-- State transition for an incoming message while autosquash is
enabled: the message is appended, then `incoming_boundary_handler`
strips the marker from the most recent marked local message in view. -/
def incomingStep (chat : List Message) (ev : Message) : List Message :=
  applyCalls (chat ++ [ev]) (incoming_boundary_handler true (chat ++ [ev]))

/-- State transition for a `!squash` command in live mode: the command
message is appended, then `squash_handler` runs. -/
def squashStep (chat : List Message) (cmd : Message) (nArg : Option Nat) :
    List Message :=
  applyCalls (chat ++ [cmd]) (squash_handler false (chat ++ [cmd]) cmd.id nArg)

/-- State transition for `!autosquash off` (src/main.py lines 74-84):
edit the command message to the status reply, strip the marker from the
last marked local message, then delete the command message. -/
def toggleOffStep (chat : List Message) (cmd : Message) : List Message :=
  let c1 := editMessage (chat ++ [cmd]) cmd.id STATUS_OFF
  let c2 := strip_marker_from_last_message c1
  deleteMessages c2 [cmd.id]

/-- State transition for `!autosquash on` (src/main.py lines 70-73 and
82-84): edit the command message to the status reply, then delete it. -/
def toggleOnStep (chat : List Message) (cmd : Message) : List Message :=
  deleteMessages (editMessage (chat ++ [cmd]) cmd.id STATUS_ON) [cmd.id]

/-- Sending a sequence of outgoing messages, one `outgoingStep` each. -/
def sendAll (chat : List Message) (msgs : List Message) : List Message :=
  msgs.foldl outgoingStep chat

/-- Conversation states reachable from an empty conversation by the
engine's operations while autosquash is enabled in live mode.  The
predicate `P` constrains the text of every arriving message (the
trigger messages of the operations); instantiating it with `True`
places no constraint. -/
inductive Reach (P : String → Prop) : List Message → Prop where
  | init : Reach P []
  | outgoing {chat ev} : Reach P chat → (∀ m ∈ chat, m.id < ev.id) →
      ev.out = true → isCommandText ev.text = false → P ev.text →
      Reach P (outgoingStep chat ev)
  | incoming {chat ev} : Reach P chat → (∀ m ∈ chat, m.id < ev.id) →
      ev.out = false → P ev.text → Reach P (incomingStep chat ev)
  | squash {chat cmd nArg} : Reach P chat → (∀ m ∈ chat, m.id < cmd.id) →
      Reach P (squashStep chat cmd nArg)
  | toggleOff {chat cmd} : Reach P chat → (∀ m ∈ chat, m.id < cmd.id) →
      cmd.out = true → Reach P (toggleOffStep chat cmd)
  | toggleOn {chat cmd} : Reach P chat → (∀ m ∈ chat, m.id < cmd.id) →
      Reach P (toggleOnStep chat cmd)

/-- Texts that cannot interfere with the marker protocol: they do not
end with the reserved marker string, and joining them after a newline
separator cannot create the marker either (which the two-character text
`">_"` would, since the separator supplies the marker's newline). -/
def safeText (t : String) : Prop :=
  hasMarker t = false ∧ t ≠ ">_"

instance (t : String) : Decidable (safeText t) := by
  unfold safeText; infer_instance

/-- Modelled from the spec's words for comparison (claim C2): strict
mode is described as operating on "the `n` messages immediately
preceding the command" regardless of author. -/
def specStrictWindow (chat : List Message) (cmdId n : Nat) : List Message :=
  iterMessages chat cmdId false n

/-- A 4097-character text, used to exercise the 4096-character length
guard on concrete inputs. -/
def bigText : String := String.mk (List.replicate 4097 'a')

/-- Inductive invariant of a conversation state under the engine's
operations: message ids are strictly increasing; a message carrying the
marker suffix is the most recent message, is locally authored and plain,
and its stripped text is safe; an unmarked message's text is safe. -/
def ChatInv (chat : List Message) : Prop :=
  List.Pairwise (fun a b => a.id < b.id) chat ∧
  ∀ m ∈ chat,
    (hasMarker m.text = true →
      chat.getLast? = some m ∧ m.out = true ∧ is_plain_text m = true ∧
        safeText (cutMarker m.text)) ∧
    (hasMarker m.text = false → safeText m.text)

/-! ### String and list helper lemmas -/

theorem string_data_eq : ∀ {s t : String}, s.data = t.data → s = t := by
  intro s t h; cases s; cases t; cases h; rfl

theorem string_append_assoc (a b c : String) : a ++ b ++ c = a ++ (b ++ c) :=
  string_data_eq (by simp [String.data_append])

theorem strEndsWith_iff {s p : String} :
    strEndsWith s p = true ↔ ∃ x, s = x ++ p := by
  unfold strEndsWith
  rw [List.isSuffixOf_iff_suffix]
  constructor
  · rintro ⟨pre, hpre⟩
    exact ⟨String.mk pre, string_data_eq (by rw [String.data_append]; exact hpre.symm)⟩
  · rintro ⟨x, rfl⟩
    rw [String.data_append]
    exact List.suffix_append _ _

theorem hasMarker_iff {t : String} : hasMarker t = true ↔ ∃ x, t = x ++ MARKER :=
  strEndsWith_iff

theorem hasMarker_append (x : String) : hasMarker (x ++ MARKER) = true :=
  hasMarker_iff.mpr ⟨x, rfl⟩

theorem cutMarker_append (x : String) : cutMarker (x ++ MARKER) = x := by
  apply string_data_eq
  show ((x ++ MARKER).data.take ((x ++ MARKER).data.length - MARKER.data.length)) = x.data
  rw [String.data_append, List.length_append, Nat.add_sub_cancel]
  exact List.take_left _ _

theorem stripMarker_of_not_marked {t : String} (h : hasMarker t = false) :
    stripMarker t = t := by
  unfold stripMarker; rw [h]; rfl

theorem stripMarker_append (x : String) : stripMarker (x ++ MARKER) = x := by
  unfold stripMarker; rw [hasMarker_append]; simpa using cutMarker_append x

theorem append_marker_ne_empty (x : String) : x ++ MARKER ≠ "" := by
  intro h
  have hl := congrArg (fun s => s.data.length) h
  simp [String.data_append] at hl
  exact absurd hl.2 (by decide)

theorem marker_data : MARKER.data = ['\n', '>', '_'] := rfl

theorem data_join (a t : String) :
    (a ++ "\n" ++ t).data = a.data ++ '\n' :: t.data := by
  rw [String.data_append, String.data_append, List.append_assoc]
  rfl

/-- Core marker-collision fact: the reserved marker cannot be the
suffix of `ad ++ '\n' :: td` unless it is already a suffix of `td` or
`td` is exactly `['>', '_']` (the separator newline supplying the
marker's first character). -/
theorem marker_not_suffix_join {ad td : List Char}
    (h1 : ¬ (['\n', '>', '_'] <:+ td)) (h2 : td ≠ ['>', '_']) :
    ¬ (['\n', '>', '_'] <:+ ad ++ '\n' :: td) := by
  intro hs
  have htd : td <:+ ad ++ '\n' :: td := by
    refine ⟨ad ++ ['\n'], by simp⟩
  match td, h1, h2 with
  | [], h1, h2 =>
    obtain ⟨p, hp⟩ := hs
    have hp' : (p ++ ['\n', '>']) ++ ['_'] = ad ++ ['\n'] := by simpa using hp
    obtain ⟨-, h4⟩ := List.append_inj' hp' rfl
    exact absurd (List.head_eq_of_cons_eq h4) (by decide)
  | [c1], h1, h2 =>
    obtain ⟨p, hp⟩ := hs
    have hp' : (p ++ ['\n', '>']) ++ ['_'] = (ad ++ ['\n']) ++ [c1] := by
      simpa using hp
    obtain ⟨h3, -⟩ := List.append_inj' hp' rfl
    have h3' : (p ++ ['\n']) ++ ['>'] = ad ++ ['\n'] := by simpa using h3
    obtain ⟨-, h4⟩ := List.append_inj' h3' rfl
    exact absurd (List.head_eq_of_cons_eq h4) (by decide)
  | [c1, c2], h1, h2 =>
    obtain ⟨p, hp⟩ := hs
    have hp' : p ++ ['\n', '>', '_'] = ad ++ ['\n', c1, c2] := by simpa using hp
    obtain ⟨-, h4⟩ := List.append_inj' hp' rfl
    have hc1 : c1 = '>' := (List.head_eq_of_cons_eq (List.tail_eq_of_cons_eq h4)).symm
    have hc2 : c2 = '_' :=
      (List.head_eq_of_cons_eq (List.tail_eq_of_cons_eq (List.tail_eq_of_cons_eq h4))).symm
    exact h2 (by rw [hc1, hc2])
  | c1 :: c2 :: c3 :: rest, h1, h2 =>
    refine h1 (List.suffix_of_suffix_length_le hs htd ?_)
    simp

theorem hasMarker_join {t : String} (h : safeText t) (a : String) :
    hasMarker (a ++ "\n" ++ t) = false := by
  obtain ⟨h1, h2⟩ := h
  have h1d : MARKER.data.isSuffixOf t.data = false := h1
  have h1' : ¬ (['\n', '>', '_'] <:+ t.data) := by
    intro hsuf
    have htr := List.isSuffixOf_iff_suffix.mpr (marker_data ▸ hsuf)
    rw [h1d] at htr
    exact Bool.false_ne_true htr
  have h2' : t.data ≠ ['>', '_'] := fun hd => h2 (string_data_eq hd)
  apply Bool.eq_false_iff.mpr
  intro hsuf
  have hsuf' : MARKER.data <:+ (a ++ "\n" ++ t).data :=
    List.isSuffixOf_iff_suffix.mp hsuf
  rw [data_join, marker_data] at hsuf'
  exact marker_not_suffix_join h1' h2' hsuf'

theorem join_ne_pair (a t : String) : a ++ "\n" ++ t ≠ ">_" := by
  intro h
  have hd := congrArg String.data h
  have hmem : '\n' ∈ (a ++ "\n" ++ t).data := by
    simp [String.data_append]
  rw [hd] at hmem
  simp at hmem

theorem safe_join {t : String} (h : safeText t) (a : String) :
    safeText (a ++ "\n" ++ t) :=
  ⟨hasMarker_join h a, join_ne_pair a t⟩

theorem joinTexts_safe : ∀ {ts : List String}, (∀ s ∈ ts, safeText s) →
    safeText (joinTexts ts) := by
  intro ts
  induction ts with
  | nil => intro; exact ⟨rfl, by decide⟩
  | cons t rest ih =>
    intro h
    match rest with
    | [] => exact h t (by simp)
    | t' :: rest' =>
      show safeText (t ++ "\n" ++ joinTexts (t' :: rest'))
      exact safe_join (ih fun s hs => h s (List.mem_cons_of_mem _ hs)) t

theorem joinTexts_concat : ∀ (ts : List String) (t : String), ts ≠ [] →
    joinTexts (ts ++ [t]) = joinTexts ts ++ "\n" ++ t := by
  intro ts
  induction ts with
  | nil => intro t h; exact absurd rfl h
  | cons a rest ih =>
    intro t _
    match rest with
    | [] => rfl
    | b :: rest' =>
      show a ++ "\n" ++ joinTexts ((b :: rest') ++ [t]) = a ++ "\n" ++ joinTexts (b :: rest') ++ "\n" ++ t
      rw [ih t (by simp)]
      apply string_data_eq
      simp [String.data_append]

theorem find?_split {α : Type} {p : α → Bool} :
    ∀ {l : List α} {a : α}, l.find? p = some a →
      ∃ pre post, l = pre ++ a :: post ∧ p a = true ∧ ∀ x ∈ pre, p x = false := by
  intro l
  induction l with
  | nil => intro a h; simp at h
  | cons b l ih =>
    intro a h
    rw [List.find?_cons] at h
    cases hb : p b with
    | true =>
      rw [hb] at h
      cases h
      exact ⟨[], l, rfl, hb, by simp⟩
    | false =>
      rw [hb] at h
      obtain ⟨pre, post, rfl, hpa, hpre⟩ := ih h
      exact ⟨b :: pre, post, rfl, hpa, by
        intro x hx
        rcases List.mem_cons.mp hx with rfl | hx
        · exact hb
        · exact hpre x hx⟩

/-! ### Backend state helper lemmas -/

theorem editMessage_eq_of_ne {chat : List Message} {i : Nat} (t : String)
    (h : ∀ m ∈ chat, m.id ≠ i) : editMessage chat i t = chat := by
  induction chat with
  | nil => rfl
  | cons m l ih =>
    unfold editMessage
    simp only [List.map_cons]
    rw [if_neg (h m (by simp))]
    have := ih fun x hx => h x (List.mem_cons_of_mem _ hx)
    unfold editMessage at this
    rw [this]

theorem editMessage_append (c1 c2 : List Message) (i : Nat) (t : String) :
    editMessage (c1 ++ c2) i t = editMessage c1 i t ++ editMessage c2 i t := by
  simp [editMessage]

theorem editMessage_concat_self {chat : List Message} {ev : Message} (t : String)
    (h : ∀ m ∈ chat, m.id ≠ ev.id) :
    editMessage (chat ++ [ev]) ev.id t = chat ++ [{ ev with text := t }] := by
  rw [editMessage_append, editMessage_eq_of_ne t h]
  simp [editMessage]

theorem deleteMessages_concat_self {chat : List Message} {ev : Message}
    (h : ∀ m ∈ chat, m.id ≠ ev.id) :
    deleteMessages (chat ++ [ev]) [ev.id] = chat := by
  unfold deleteMessages
  rw [List.filter_append]
  have h1 : (chat.filter fun m => !([ev.id].contains m.id)) = chat :=
    List.filter_eq_self.mpr fun m hm => by simp [h m hm]
  rw [h1]
  simp

theorem mem_deleteMessages_of_ne {chat : List Message} {x : Nat} {m : Message}
    (hm : m ∈ chat) (h : m.id ≠ x) : m ∈ deleteMessages chat [x] :=
  List.mem_filter.mpr ⟨hm, by simp [h]⟩

theorem head?_take_one {α : Type} (l : List α) : (l.take 1).head? = l.head? := by
  cases l <;> rfl

theorem prevMessage_concat {chat : List Message} {ev : Message}
    (h : ∀ m ∈ chat, m.id < ev.id) :
    prevMessage (chat ++ [ev]) ev.id = chat.getLast? := by
  unfold prevMessage iterMessages
  rw [List.filter_append]
  have h1 : (chat.filter fun m => decide (m.id < ev.id) && (!false || m.out)) = chat :=
    List.filter_eq_self.mpr fun m hm => by simp [h m hm]
  rw [h1]
  have h2 : ([ev].filter fun m => decide (m.id < ev.id) && (!false || m.out)) = [] := by
    simp
  rw [h2, List.append_nil, head?_take_one, List.head?_reverse]

/-! ### Claim C7: idempotence of marker stripping -/

/-- C7 (counterexample): marker stripping as implemented is NOT
idempotent on every text.  On `"\n>_\n>_"` one strip leaves `"\n>_"`,
which still ends with the marker, so a second strip removes more. -/
theorem C7_counterexample :
    stripMarker (stripMarker "\n>_\n>_") ≠ stripMarker "\n>_\n>_" := by decide

/-- C7 (amended): stripping is idempotent on every text that does not
end with a doubled marker, i.e. `stripMarker (stripMarker x) =
stripMarker x` whenever `x` does not end with `MARKER ++ MARKER`. -/
theorem C7_theorem (x : String) (h : strEndsWith x (MARKER ++ MARKER) = false) :
    stripMarker (stripMarker x) = stripMarker x := by
  by_cases hm : hasMarker x = true
  · obtain ⟨y, rfl⟩ := hasMarker_iff.mp hm
    rw [stripMarker_append]
    have hy : hasMarker y = false := by
      apply Bool.eq_false_iff.mpr
      intro hy'
      obtain ⟨z, rfl⟩ := hasMarker_iff.mp hy'
      rw [string_append_assoc] at h
      have htrue : strEndsWith (z ++ (MARKER ++ MARKER)) (MARKER ++ MARKER) = true :=
        strEndsWith_iff.mpr ⟨z, rfl⟩
      rw [h] at htrue
      exact Bool.false_ne_true htrue
    rw [stripMarker_of_not_marked hy]
  · rw [stripMarker_of_not_marked (Bool.eq_false_iff.mpr hm),
      stripMarker_of_not_marked (Bool.eq_false_iff.mpr hm)]

/-- C7 witness: concrete instance of the amended idempotence. -/
theorem C7_witness :
    strEndsWith "abc" (MARKER ++ MARKER) = false ∧
      stripMarker (stripMarker "abc") = stripMarker "abc" :=
  ⟨by decide, C7_theorem "abc" (by decide)⟩

/-! ### Claim C8: `!squash n` with `n < 1` is a no-op cancellation -/

/-- C8: in live mode, a `!squash` command whose parsed count is below
one issues exactly one call, deleting only the command message; every
other message survives untouched. -/
theorem C8_theorem (chat : List Message) (cmdId n : Nat) (h : n < 1) :
    squash_handler false chat cmdId (some n) = [Call.delete [cmdId]] ∧
      ∀ m ∈ chat, m.id ≠ cmdId →
        m ∈ applyCalls chat (squash_handler false chat cmdId (some n)) := by
  have hc : collectMessages chat cmdId (some n) = none := by
    simp only [collectMessages]
    rw [if_pos h]
  have htrace : squash_handler false chat cmdId (some n) = [Call.delete [cmdId]] := by
    unfold squash_handler
    rw [hc]
    rfl
  refine ⟨htrace, ?_⟩
  intro m hm hne
  rw [htrace]
  exact mem_deleteMessages_of_ne hm hne

/-- C8 witness: concrete instance. -/
theorem C8_witness :
    squash_handler false [⟨1, true, "a", false, false⟩] 2 (some 0) = [Call.delete [2]] ∧
      ⟨1, true, "a", false, false⟩ ∈
        applyCalls [⟨1, true, "a", false, false⟩]
          (squash_handler false [⟨1, true, "a", false, false⟩] 2 (some 0)) := by
  have h := C8_theorem [⟨1, true, "a", false, false⟩] 2 0 (by decide)
  exact ⟨h.1, h.2 _ (by decide) (by decide)⟩

/-! ### Claim C2: strict-mode window and all-or-nothing abort -/

/-- C2 (counterexample): the code passes `from_user='me'` to the
history fetch, so messages by other authors inside the claimed window
are skipped, not aborted on.  Here the two messages immediately
preceding the command are the other-authored message 2 and the local
message 3, so the claim demands a pure cancellation, yet the handler
edits source message 1 and deletes source message 3. -/
theorem C2_counterexample :
    (∃ m ∈ specStrictWindow
        [⟨1, true, "a", false, false⟩, ⟨2, false, "x", false, false⟩,
         ⟨3, true, "b", false, false⟩, ⟨4, true, "!squash 2", false, false⟩] 4 2,
      m.out = false) ∧
    squash_handler false
        [⟨1, true, "a", false, false⟩, ⟨2, false, "x", false, false⟩,
         ⟨3, true, "b", false, false⟩, ⟨4, true, "!squash 2", false, false⟩] 4 (some 2)
      = [Call.edit 1 "a\nb", Call.delete [3, 4]] := by decide

/-- C2 (amended): strict mode collects the up-to-`n` most recent
locally-authored messages preceding the command (other authors'
messages are skipped over, not aborted on); if any collected message is
not plain text, the operation issues exactly one call, deleting only
the command message, and every other message survives untouched. -/
theorem C2_theorem (chat : List Message) (cmdId n : Nat) (hn : 1 ≤ n)
    (h : ∃ m ∈ iterMessages chat cmdId true n, is_plain_text m = false) :
    squash_handler false chat cmdId (some n) = [Call.delete [cmdId]] ∧
      ∀ m ∈ chat, m.id ≠ cmdId →
        m ∈ applyCalls chat (squash_handler false chat cmdId (some n)) := by
  have hall : (iterMessages chat cmdId true n).all is_plain_text = false := by
    rw [List.all_eq_false]
    obtain ⟨m, hm, hmp⟩ := h
    exact ⟨m, hm, by rw [hmp]; exact Bool.false_ne_true⟩
  have hc : collectMessages chat cmdId (some n) = none := by
    simp only [collectMessages]
    rw [if_neg (by omega), if_neg (by rw [hall]; exact Bool.false_ne_true)]
  have htrace : squash_handler false chat cmdId (some n) = [Call.delete [cmdId]] := by
    unfold squash_handler
    rw [hc]
    rfl
  refine ⟨htrace, ?_⟩
  intro m hm hne
  rw [htrace]
  exact mem_deleteMessages_of_ne hm hne

/-- C2 witness: concrete instance of the amended strict-mode abort (a
media message inside the local window). -/
theorem C2_witness :
    squash_handler false
        [⟨1, true, "", true, false⟩, ⟨2, true, "x", false, false⟩] 3 (some 2)
      = [Call.delete [3]] :=
  (C2_theorem [⟨1, true, "", true, false⟩, ⟨2, true, "x", false, false⟩] 3 2
    (by decide) ⟨⟨1, true, "", true, false⟩, by decide, by decide⟩).1

/-! ### Claim C9: dry-run mode and backend mutations -/

/-- C9 (counterexample): the incoming boundary handler (src/main.py
lines 159-167) never consults the dry-run flag — the model therefore
has no dry-run parameter — so with autosquash enabled it issues a real
edit call even when the process was started with `--dry-run`,
contradicting "no edit and no delete calls are issued for any
operation". -/
theorem C9_counterexample :
    incoming_boundary_handler true [⟨1, true, "a\n>_", false, false⟩]
      = [Call.edit 1 (cutMarker "a\n>_")] := by decide

/-- C9 (amended): dry-run mode suppresses every backend call of the
command squash processor and of the autosquash watcher; the incoming
boundary handler and the toggle handler ignore the flag. -/
theorem C9_theorem :
    (∀ (chat : List Message) (cmdId : Nat) (nArg : Option Nat),
      squash_handler true chat cmdId nArg = []) ∧
    ∀ (enabled : Bool) (chat : List Message) (ev : Message),
      autosquash_watcher enabled true chat ev = [] := by
  constructor
  · intro chat cmdId nArg
    unfold squash_handler
    cases collectMessages chat cmdId nArg with
    | none => rfl
    | some collected =>
      show squashCollected true collected cmdId = []
      unfold squashCollected
      cases collected.reverse with
      | nil => rfl
      | cons target rest => simp
  · intro enabled chat ev
    unfold autosquash_watcher
    by_cases h1 : isCommandText ev.text = true
    · rw [if_pos h1]
    · rw [if_neg h1]
      cases enabled <;> rfl

/-! ### Claim C6: incoming events strip the marker -/

/-- C6 (counterexample): the strip scan fetches only the ten most
recent locally-authored messages (`limit=10`), so a marked local
message further back is not stripped.  Here eleven local messages
follow the marked one only in ids 2..11; the marked message 1 falls
outside the window and the handler issues no call at all, although a
marked locally-authored message exists in the conversation. -/
theorem C6_counterexample :
    (∃ m ∈ ([⟨1, true, "a\n>_", false, false⟩, ⟨2, true, "m", false, false⟩,
        ⟨3, true, "m", false, false⟩, ⟨4, true, "m", false, false⟩,
        ⟨5, true, "m", false, false⟩, ⟨6, true, "m", false, false⟩,
        ⟨7, true, "m", false, false⟩, ⟨8, true, "m", false, false⟩,
        ⟨9, true, "m", false, false⟩, ⟨10, true, "m", false, false⟩,
        ⟨11, true, "m", false, false⟩, ⟨12, false, "hi", false, false⟩] : List Message),
      m.out = true ∧ hasMarker m.text = true) ∧
    incoming_boundary_handler true
        [⟨1, true, "a\n>_", false, false⟩, ⟨2, true, "m", false, false⟩,
         ⟨3, true, "m", false, false⟩, ⟨4, true, "m", false, false⟩,
         ⟨5, true, "m", false, false⟩, ⟨6, true, "m", false, false⟩,
         ⟨7, true, "m", false, false⟩, ⟨8, true, "m", false, false⟩,
         ⟨9, true, "m", false, false⟩, ⟨10, true, "m", false, false⟩,
         ⟨11, true, "m", false, false⟩, ⟨12, false, "hi", false, false⟩] = [] := by
  decide

/-- C6 (amended): with autosquash enabled, an incoming event strips
the marker from the most recent marked message among the ten most
recent locally-authored messages, if any (and issues nothing
otherwise); no other message is mutated.  "Most recent" is witnessed
by the split of the newest-first scan window at the found message,
everything before it being unmarked. -/
theorem C6_theorem (chat : List Message) :
    (findMarked chat = none → incoming_boundary_handler true chat = []) ∧
    ∀ m, findMarked chat = some m →
      incoming_boundary_handler true chat = [Call.edit m.id (cutMarker m.text)] ∧
      m ∈ markedWindow chat ∧ markedPred m = true ∧
      ∃ pre post, markedWindow chat = pre ++ m :: post ∧
        ∀ x ∈ pre, markedPred x = false := by
  constructor
  · intro hnone
    show (if !true then [] else stripCalls chat) = []
    simp only [Bool.not_true, Bool.false_eq_true, if_false]
    unfold stripCalls
    rw [hnone]
  · intro m hsome
    obtain ⟨pre, post, hw, hpm, hpre⟩ := find?_split hsome
    refine ⟨?_, ?_, hpm, pre, post, hw, hpre⟩
    · show (if !true then [] else stripCalls chat) = _
      simp only [Bool.not_true, Bool.false_eq_true, if_false]
      unfold stripCalls
      rw [hsome]
    · rw [hw]
      exact List.mem_append_right _ (List.mem_cons_self _ _)

/-- C6 witness: concrete instance of the amended stripping behaviour. -/
theorem C6_witness :
    incoming_boundary_handler true
        [⟨1, true, "a\n>_", false, false⟩, ⟨2, false, "hi", false, false⟩]
      = [Call.edit 1 (cutMarker "a\n>_")] :=
  ((C6_theorem [⟨1, true, "a\n>_", false, false⟩, ⟨2, false, "hi", false, false⟩]).2
    ⟨1, true, "a\n>_", false, false⟩ (by decide)).1

/-! ### Length and big-string helper lemmas -/

theorem string_length_append (a b : String) : (a ++ b).length = a.length + b.length := by
  show (a ++ b).data.length = a.data.length + b.data.length
  rw [String.data_append, List.length_append]

theorem mergedText_length (a b : String) :
    (mergedText a b).length = (cutMarker a).length + 1 + b.length + 3 := by
  unfold mergedText
  rw [string_length_append, string_length_append, string_length_append]
  rfl

theorem bigText_length : bigText.length = 4097 := by
  show (List.replicate 4097 'a').length = 4097
  rw [List.length_replicate]

theorem bigText_ne_empty : bigText ≠ "" := by
  intro h
  have hl := congrArg String.length h
  rw [bigText_length] at hl
  exact absurd hl (by decide)

theorem bigText_no_marker : hasMarker bigText = false := by
  apply Bool.eq_false_iff.mpr
  intro h
  obtain ⟨x, hx⟩ := hasMarker_iff.mp h
  have hmem : '\n' ∈ bigText.data := by
    rw [hx, String.data_append]
    exact List.mem_append_right _ (by rw [marker_data]; simp)
  exact absurd (List.eq_of_mem_replicate hmem) (by decide)

/-! ### Claim C5: merge failures are contained and degrade to a fresh chain -/

/-- C5: for every combination of backend failures during an autosquash
merge attempt, the handler body returns normally (no exception escapes
the event handler), and whenever the edit of the predecessor or the
delete of the new message fails, the result is exactly the best-effort
fallback that marks the new message as the start of a fresh chain,
applied to whatever state the partial merge left behind. -/
theorem C5_theorem (failsEdit failsDelete failsMark : Bool)
    (chat : List Message) (prev ev : Message) :
    (∃ s, autosquashMergeExec failsEdit failsDelete failsMark chat prev ev = Except.ok s) ∧
    ((failsEdit || failsDelete) = true →
      autosquashMergeExec failsEdit failsDelete failsMark chat prev ev =
        Except.ok (fallbackNewChain failsMark
          (if failsEdit then chat
           else editMessage chat prev.id (mergedText prev.text ev.text)) ev)) := by
  constructor
  · cases failsEdit <;> cases failsDelete <;> cases failsMark <;> exact ⟨_, rfl⟩
  · intro h
    cases failsEdit with
    | true => rfl
    | false =>
      cases failsDelete with
      | true => rfl
      | false => simp at h

/-- C5 witness: the predecessor edit fails, every message survives and
the new message is marked as a fresh chain. -/
theorem C5_witness :
    autosquashMergeExec true false false
        [⟨1, true, "a\n>_", false, false⟩, ⟨2, true, "b", false, false⟩]
        ⟨1, true, "a\n>_", false, false⟩ ⟨2, true, "b", false, false⟩ =
      Except.ok [⟨1, true, "a\n>_", false, false⟩, ⟨2, true, "b\n>_", false, false⟩] := by
  have h := (C5_theorem true false false
    [⟨1, true, "a\n>_", false, false⟩, ⟨2, true, "b", false, false⟩]
    ⟨1, true, "a\n>_", false, false⟩ ⟨2, true, "b", false, false⟩).2 (by decide)
  exact h.trans (by rfl)

/-! ### Claim C4: the 4096-character length guard -/

/-- C4: no merge path ever issues an edit carrying a combined text
longer than 4096 characters.  Command path: when the combined text of
the collected messages exceeds 4096 characters, the handler issues no
edit at all — in live mode it only deletes the command message, in dry
run it issues nothing.  Watcher path: when the merged text would
exceed 4096 characters, the watcher instead closes the old chain
(editing the predecessor to its stripped text) and starts a new chain
at the new message, and every text it edits in is strictly shorter
than the oversized combined text. -/
theorem C4_theorem :
    (∀ (dryRun : Bool) (chat : List Message) (cmdId : Nat) (nArg : Option Nat)
        (collected : List Message),
      collectMessages chat cmdId nArg = some collected →
      4096 < (combinedOf collected).length →
      squash_handler dryRun chat cmdId nArg =
        if dryRun then [] else [Call.delete [cmdId]]) ∧
    (∀ (chat : List Message) (ev prev : Message),
      isCommandText ev.text = false →
      is_plain_text ev = true →
      prevMessage chat ev.id = some prev →
      prev.out = true →
      is_plain_text prev = true →
      hasMarker prev.text = true →
      4096 < (mergedText prev.text ev.text).length →
      autosquash_watcher true false chat ev =
          [Call.edit prev.id (cutMarker prev.text),
           Call.edit ev.id (ev.text ++ MARKER)] ∧
        ∀ i s, Call.edit i s ∈ autosquash_watcher true false chat ev →
          s.length < (mergedText prev.text ev.text).length) := by
  constructor
  · intro dryRun chat cmdId nArg collected hc hlen
    unfold squash_handler
    rw [hc]
    show squashCollected dryRun collected cmdId = _
    unfold squashCollected
    cases hrev : collected.reverse with
    | nil =>
      exfalso
      rw [List.reverse_eq_nil_iff] at hrev
      rw [hrev] at hlen
      exact absurd hlen (by decide)
    | cons target rest =>
      show (if 4096 < (combinedOf collected).length then
          (if dryRun then [] else [Call.delete [cmdId]]) else _) = _
      rw [if_pos hlen]
  · intro chat ev prev h1 h2 h3 h4 h5 h6 hlen
    have htrace : autosquash_watcher true false chat ev =
        [Call.edit prev.id (cutMarker prev.text),
         Call.edit ev.id (ev.text ++ MARKER)] := by
      simp only [autosquash_watcher, h1, h2, h3, h4, h5, h6, Bool.not_true,
        Bool.not_false, Bool.true_and, Bool.false_eq_true, if_false, if_true]
      rw [if_neg (by omega)]
    refine ⟨htrace, ?_⟩
    intro i s hmem
    rw [htrace] at hmem
    have hml := mergedText_length prev.text ev.text
    rcases List.mem_cons.mp hmem with hh | hmem'
    · cases hh
      omega
    · rcases List.mem_cons.mp hmem' with hh | hmem''
      · cases hh
        rw [string_length_append]
        have : MARKER.length = 3 := rfl
        omega
      · simp at hmem''

/-- C4 witness: a 4097-character message makes the command path delete
only the command, and an overflowing merge makes the watcher close the
old chain and start a new one. -/
theorem C4_witness :
    squash_handler false [⟨1, true, bigText, false, false⟩] 2 (some 1)
        = [Call.delete [2]] ∧
      autosquash_watcher true false
          [⟨1, true, bigText ++ MARKER, false, false⟩, ⟨2, true, "b", false, false⟩]
          ⟨2, true, "b", false, false⟩
        = [Call.edit 1 (cutMarker (bigText ++ MARKER)), Call.edit 2 ("b" ++ MARKER)] := by
  constructor
  · have hp : is_plain_text ⟨1, true, bigText, false, false⟩ = true := by
      simp [is_plain_text, bne_iff_ne]
      exact bigText_ne_empty
    have hc : collectMessages [⟨1, true, bigText, false, false⟩] 2 (some 1)
        = some [⟨1, true, bigText, false, false⟩] := by
      simp [collectMessages, iterMessages, hp]
    have hcomb : combinedOf [⟨1, true, bigText, false, false⟩] = bigText := by
      show joinTexts [stripMarker bigText] = bigText
      show stripMarker bigText = bigText
      exact stripMarker_of_not_marked bigText_no_marker
    have hlen : 4096 < (combinedOf [⟨1, true, bigText, false, false⟩]).length := by
      rw [hcomb, bigText_length]
      omega
    exact C4_theorem.1 false _ 2 (some 1) _ hc hlen
  · have h5 : is_plain_text ⟨1, true, bigText ++ MARKER, false, false⟩ = true := by
      simp [is_plain_text, bne_iff_ne]
      exact append_marker_ne_empty bigText
    have h3 : prevMessage
        [⟨1, true, bigText ++ MARKER, false, false⟩, ⟨2, true, "b", false, false⟩] 2
        = some ⟨1, true, bigText ++ MARKER, false, false⟩ := by
      have h := @prevMessage_concat [⟨1, true, bigText ++ MARKER, false, false⟩]
        ⟨2, true, "b", false, false⟩ (by simp)
      exact h
    have hlen : 4096 < (mergedText (bigText ++ MARKER) "b").length := by
      rw [mergedText_length, cutMarker_append, bigText_length]
      have : ("b" : String).length = 1 := rfl
      omega
    exact (C4_theorem.2 _ ⟨2, true, "b", false, false⟩ ⟨1, true, bigText ++ MARKER, false, false⟩
      (by decide) (by decide) h3 rfl h5 (hasMarker_append bigText) hlen).1

/-! ### Helper lemmas for the squash text and the autosquash chain -/

theorem textOf_editMessage_found : ∀ {c : List Message} {i : Nat} (t : String),
    (∃ m ∈ c, m.id = i) → textOf (editMessage c i t) i = some t := by
  intro c
  induction c with
  | nil => intro i t h; simp at h
  | cons m l ih =>
    intro i t h
    unfold textOf editMessage
    by_cases hm : m.id = i
    · simp only [List.map_cons, if_pos hm, List.find?_cons]
      have hb : (({ m with text := t } : Message).id == i) = true := by simp [hm]
      rw [hb]
      rfl
    · simp only [List.map_cons, if_neg hm, List.find?_cons]
      have hne : (m.id == i) = false := by simp [hm]
      rw [hne]
      show textOf (editMessage l i t) i = some t
      obtain ⟨m2, hm2, hid⟩ := h
      rcases List.mem_cons.mp hm2 with rfl | hmem
      · exact absurd hid hm
      · exact ih t ⟨m2, hmem, hid⟩

theorem textOf_deleteMessages : ∀ {c : List Message} {ids : List Nat} {i : Nat},
    ids.contains i = false → textOf (deleteMessages c ids) i = textOf c i := by
  intro c
  induction c with
  | nil => intro ids i h; rfl
  | cons m l ih =>
    intro ids i h
    have ihh := @ih ids i h
    show textOf (deleteMessages (m :: l) ids) i = _
    unfold deleteMessages
    rw [List.filter_cons]
    by_cases hm : ids.contains m.id = true
    · have hpred : (!ids.contains m.id) = false := by rw [hm]; rfl
      rw [hpred, if_neg Bool.false_ne_true]
      have hmne : (m.id == i) = false := by
        apply Bool.eq_false_iff.mpr
        intro he
        rw [beq_iff_eq] at he
        rw [he] at hm
        rw [hm] at h
        cases h
      show textOf (deleteMessages l ids) i = textOf (m :: l) i
      rw [ihh]
      unfold textOf
      rw [List.find?_cons, hmne]
    · have hm2 : ids.contains m.id = false := Bool.eq_false_iff.mpr hm
      have hpred : (!ids.contains m.id) = true := by rw [hm2]; rfl
      rw [hpred, if_pos rfl]
      show textOf (m :: deleteMessages l ids) i = textOf (m :: l) i
      unfold textOf
      rw [List.find?_cons, List.find?_cons]
      cases hmi : (m.id == i) with
      | true => rfl
      | false => exact ihh

theorem applyCalls_append (c : List Message) (t1 t2 : List Call) :
    applyCalls c (t1 ++ t2) = applyCalls (applyCalls c t1) t2 :=
  List.foldl_append _ _ _ _

theorem joinTexts_cons_cons (a b : String) (L : List String) :
    joinTexts ((a ++ "\n" ++ b) :: L) = joinTexts (a :: b :: L) := by
  cases L with
  | nil => rfl
  | cons y L2 =>
    show (a ++ "\n" ++ b) ++ "\n" ++ joinTexts (y :: L2)
        = a ++ "\n" ++ (b ++ "\n" ++ joinTexts (y :: L2))
    apply string_data_eq
    simp [String.data_append]

theorem le_length_joinTexts_cons (x : String) (L : List String) :
    x.length ≤ (joinTexts (x :: L)).length := by
  cases L with
  | nil => exact le_rfl
  | cons y L2 =>
    show x.length ≤ (x ++ "\n" ++ joinTexts (y :: L2)).length
    rw [string_length_append, string_length_append]
    omega

theorem outgoingStep_nil (m0 : Message) (hcmd : isCommandText m0.text = false)
    (hplain : is_plain_text m0 = true) :
    outgoingStep [] m0 = [{ m0 with text := m0.text ++ MARKER }] := by
  unfold outgoingStep
  have hprev : prevMessage ([] ++ [m0]) m0.id = none := by
    rw [@prevMessage_concat [] m0 (by simp)]
    rfl
  have htrace : autosquash_watcher true false ([] ++ [m0]) m0
      = [Call.edit m0.id (m0.text ++ MARKER)] := by
    simp only [autosquash_watcher, hcmd, hplain, hprev, Bool.not_true, Bool.not_false,
      Bool.false_eq_true, if_false, if_true]
  rw [htrace]
  show editMessage ([] ++ [m0]) m0.id (m0.text ++ MARKER) = _
  simp [editMessage]

theorem outgoingStep_merge (m0 ev : Message) (T : String)
    (hid : m0.id < ev.id) (hevplain : is_plain_text ev = true)
    (hevcmd : isCommandText ev.text = false)
    (hout : m0.out = true) (hmedia : m0.media = false) (hfwd : m0.fwdFrom = false)
    (hlen : (T ++ "\n" ++ ev.text ++ MARKER).length ≤ 4096) :
    outgoingStep [{ m0 with text := T ++ MARKER }] ev
      = [{ m0 with text := T ++ "\n" ++ ev.text ++ MARKER }] := by
  unfold outgoingStep
  have hprev : prevMessage ([{ m0 with text := T ++ MARKER }] ++ [ev]) ev.id
      = some { m0 with text := T ++ MARKER } := by
    rw [@prevMessage_concat [{ m0 with text := T ++ MARKER }] ev (by
      intro m hm
      rcases List.mem_cons.mp hm with rfl | hnil
      · exact hid
      · simp at hnil)]
    rfl
  have hp4 : ({ m0 with text := T ++ MARKER } : Message).out = true := hout
  have hp5 : is_plain_text { m0 with text := T ++ MARKER } = true := by
    simp [is_plain_text, hmedia, hfwd, bne_iff_ne]
    exact append_marker_ne_empty T
  have hmark : hasMarker ({ m0 with text := T ++ MARKER } : Message).text = true :=
    hasMarker_append T
  have hmerged : mergedText ({ m0 with text := T ++ MARKER } : Message).text ev.text
      = T ++ "\n" ++ ev.text ++ MARKER := by
    unfold mergedText
    rw [show ({ m0 with text := T ++ MARKER } : Message).text = T ++ MARKER from rfl,
      cutMarker_append]
  have htrace : autosquash_watcher true false ([{ m0 with text := T ++ MARKER }] ++ [ev]) ev
      = [Call.edit m0.id (T ++ "\n" ++ ev.text ++ MARKER), Call.delete [ev.id]] := by
    simp only [autosquash_watcher, hevcmd, hevplain, hprev, hp4, hp5, hmark,
      Bool.not_true, Bool.not_false, Bool.false_eq_true, Bool.true_and,
      if_false, if_true]
    rw [hmerged, if_pos hlen, hout]
    simp
  rw [htrace]
  have hne : ¬ (ev.id = m0.id) := by omega
  have hne2 : ¬ (m0.id = ev.id) := by omega
  show deleteMessages
      (editMessage ([{ m0 with text := T ++ MARKER }] ++ [ev]) m0.id
        (T ++ "\n" ++ ev.text ++ MARKER)) [ev.id] = _
  simp [editMessage, deleteMessages, hne, hne2]

theorem sendAll_chain : ∀ (rest : List Message) (m0 : Message) (T : String),
    (∀ m ∈ rest, m.out = true ∧ is_plain_text m = true ∧ isCommandText m.text = false) →
    (∀ m ∈ rest, m0.id < m.id) →
    m0.out = true → m0.media = false → m0.fwdFrom = false →
    (joinTexts (T :: rest.map fun m => m.text)).length + 3 ≤ 4096 →
    sendAll [{ m0 with text := T ++ MARKER }] rest
      = [{ m0 with text := joinTexts (T :: rest.map fun m => m.text) ++ MARKER }] := by
  intro rest
  induction rest with
  | nil => intro m0 T hconds hids hout hmedia hfwd hlen; rfl
  | cons ev rest2 ih =>
    intro m0 T hconds hids hout hmedia hfwd hlen
    obtain ⟨hevout, hevplain, hevcmd⟩ := hconds ev (by simp)
    have hid : m0.id < ev.id := hids ev (by simp)
    have hlen2 : (T ++ "\n" ++ joinTexts (ev.text :: rest2.map fun m => m.text)).length + 3 ≤ 4096 :=
      hlen
    have hjl : (T ++ "\n" ++ joinTexts (ev.text :: rest2.map fun m => m.text)).length
        = T.length + 1 + (joinTexts (ev.text :: rest2.map fun m => m.text)).length := by
      rw [string_length_append, string_length_append]
      rfl
    have hev_le : ev.text.length ≤ (joinTexts (ev.text :: rest2.map fun m => m.text)).length :=
      le_length_joinTexts_cons _ _
    have hstep : (T ++ "\n" ++ ev.text ++ MARKER).length ≤ 4096 := by
      have h5 : (T ++ "\n" ++ ev.text ++ MARKER).length
          = T.length + 1 + ev.text.length + 3 := by
        rw [string_length_append, string_length_append, string_length_append]
        rfl
      omega
    show sendAll (outgoingStep [{ m0 with text := T ++ MARKER }] ev) rest2 = _
    rw [outgoingStep_merge m0 ev T hid hevplain hevcmd hout hmedia hfwd hstep]
    have hlen3 : (joinTexts ((T ++ "\n" ++ ev.text) :: rest2.map fun m => m.text)).length + 3 ≤ 4096 := by
      rw [joinTexts_cons_cons]
      exact hlen
    rw [ih m0 (T ++ "\n" ++ ev.text)
      (fun m hm => hconds m (List.mem_cons_of_mem _ hm))
      (fun m hm => hids m (List.mem_cons_of_mem _ hm))
      hout hmedia hfwd hlen3]
    rw [joinTexts_cons_cons]
    rfl

/-! ### Claim C1: combined text of a squash -/

/-- C1 (counterexample): in an autosquash merge the new message's own
text is taken verbatim — the marker suffix is NOT first stripped from
it.  Sending `"a"` then `"b\n>_"` with autosquash on produces the text
`"a\nb\n>_\n>_"`, not the claimed `stripMarker`-cleaned join
`"a\nb" ++ MARKER`. -/
theorem C1_counterexample :
    textOf (sendAll [] [⟨1, true, "a", false, false⟩, ⟨2, true, "b\n>_", false, false⟩]) 1
        ≠ some (joinTexts (["a", "b\n>_"].map stripMarker) ++ MARKER) ∧
      textOf (sendAll [] [⟨1, true, "a", false, false⟩, ⟨2, true, "b\n>_", false, false⟩]) 1
        = some (joinTexts ["a", "b\n>_"] ++ MARKER) := by
  decide

/-- C1 (amended): (command path) for every collected run, the
surviving target message's text equals the newline-joined chronological
concatenation of the source texts with marker suffixes stripped first;
(autosquash path) a chronological sequence of plain outgoing
non-command sends merges into a single message whose text is the
newline-joined concatenation of the RAW source texts (no stripping of
the sources — only the bot-maintained head marker is stripped at each
step) with the marker re-appended at the end. -/
theorem C1_theorem :
    (∀ (c collected : List Message) (cmdId : Nat) (target : Message) (rest : List Message),
      collected.reverse = target :: rest →
      (combinedOf collected).length ≤ 4096 →
      target ∈ c →
      textOf c target.id = some target.text →
      ¬ target.id ∈ rest.map (fun m => m.id) →
      target.id ≠ cmdId →
      textOf (applyCalls c (squashCollected false collected cmdId)) target.id
        = some (joinTexts ((target :: rest).map fun m => stripMarker m.text))) ∧
    (∀ (m0 : Message) (rest : List Message),
      List.Pairwise (fun a b => a.id < b.id) (m0 :: rest) →
      (∀ m ∈ m0 :: rest, m.out = true ∧ is_plain_text m = true ∧ isCommandText m.text = false) →
      (joinTexts ((m0 :: rest).map fun m => m.text)).length + 3 ≤ 4096 →
      sendAll [] (m0 :: rest)
        = [{ m0 with text := joinTexts ((m0 :: rest).map fun m => m.text) ++ MARKER }]) := by
  constructor
  · intro c collected cmdId target rest hrev hlen htmem htext hnotrest hnotcmd
    have hcomb : combinedOf collected
        = joinTexts ((target :: rest).map fun m => stripMarker m.text) := by
      unfold combinedOf
      rw [hrev]
    have hcontains : ((rest.map fun m => m.id) ++ [cmdId]).contains target.id = false := by
      apply Bool.eq_false_iff.mpr
      intro hc
      have hmemc : target.id ∈ (rest.map fun m => m.id) ++ [cmdId] := by
        simpa using hc
      rcases List.mem_append.mp hmemc with hmem1 | hmem2
      · exact hnotrest hmem1
      · simp at hmem2
        exact hnotcmd hmem2
    have htrace : squashCollected false collected cmdId
        = (if combinedOf collected = target.text then []
            else [Call.edit target.id (combinedOf collected)]) ++
          [Call.delete ((rest.map fun m => m.id) ++ [cmdId])] := by
      unfold squashCollected
      rw [hrev]
      show (if 4096 < (combinedOf collected).length then _ else _) = _
      rw [if_neg (by omega)]
      rfl
    rw [htrace, applyCalls_append]
    by_cases heq : combinedOf collected = target.text
    · rw [if_pos heq]
      show textOf (deleteMessages c ((rest.map fun m => m.id) ++ [cmdId])) target.id = _
      rw [textOf_deleteMessages hcontains, htext, ← heq, hcomb]
    · rw [if_neg heq]
      show textOf (deleteMessages (editMessage c target.id (combinedOf collected))
        ((rest.map fun m => m.id) ++ [cmdId])) target.id = _
      rw [textOf_deleteMessages hcontains,
        textOf_editMessage_found _ ⟨target, htmem, rfl⟩, hcomb]
  · intro m0 rest hpw hconds hlen
    obtain ⟨h0out, h0plain, h0cmd⟩ := hconds m0 (by simp)
    have hmedia : m0.media = false := by
      have h := h0plain
      simp [is_plain_text] at h
      tauto
    have hfwd : m0.fwdFrom = false := by
      have h := h0plain
      simp [is_plain_text] at h
      tauto
    show sendAll (outgoingStep [] m0) rest = _
    rw [outgoingStep_nil m0 h0cmd h0plain]
    have hids : ∀ m ∈ rest, m0.id < m.id := (List.pairwise_cons.mp hpw).1
    exact sendAll_chain rest m0 m0.text
      (fun m hm => hconds m (List.mem_cons_of_mem _ hm))
      hids h0out hmedia hfwd hlen

/-- C1 witness: concrete instances of both amended paths: a command
squash of "Hello","world" yielding "Hello\nworld", and an autosquash
chain over "a","b" yielding "a\nb" plus the marker. -/
theorem C1_witness :
    textOf (applyCalls
        [⟨1, true, "Hello", false, false⟩, ⟨2, true, "world", false, false⟩,
         ⟨3, true, "!squash", false, false⟩]
        (squashCollected false
          [⟨2, true, "world", false, false⟩, ⟨1, true, "Hello", false, false⟩] 3)) 1
      = some (joinTexts ([⟨1, true, "Hello", false, false⟩,
          (⟨2, true, "world", false, false⟩ : Message)].map fun m => stripMarker m.text)) ∧
    sendAll [] [⟨1, true, "a", false, false⟩, ⟨2, true, "b", false, false⟩]
      = [{ (⟨1, true, "a", false, false⟩ : Message) with
          text := joinTexts ([⟨1, true, "a", false, false⟩,
            (⟨2, true, "b", false, false⟩ : Message)].map fun m => m.text) ++ MARKER }] := by
  constructor
  · exact C1_theorem.1
      [⟨1, true, "Hello", false, false⟩, ⟨2, true, "world", false, false⟩,
       ⟨3, true, "!squash", false, false⟩]
      [⟨2, true, "world", false, false⟩, ⟨1, true, "Hello", false, false⟩] 3
      ⟨1, true, "Hello", false, false⟩ [⟨2, true, "world", false, false⟩]
      (by decide) (by decide) (by decide) (by decide) (by decide) (by decide)
  · exact C1_theorem.2 ⟨1, true, "a", false, false⟩ [⟨2, true, "b", false, false⟩]
      (by decide) (by decide) (by decide)

/-! ### Invariant infrastructure for claim C3 -/

theorem plain_text_bne {m : Message} (h : is_plain_text m = true) :
    (m.text != "") = true := by
  rw [is_plain_text, Bool.and_eq_true, Bool.and_eq_true] at h
  exact h.1.1

theorem plain_update_text {m : Message} {t : String}
    (h : is_plain_text m = true) (ht : t ≠ "") :
    is_plain_text { m with text := t } = true := by
  rw [is_plain_text, Bool.and_eq_true, Bool.and_eq_true] at h ⊢
  refine ⟨⟨?_, h.1.2⟩, h.2⟩
  show (t != "") = true
  simp [bne_iff_ne]
  exact ht

theorem pairwise_concat_fresh {chat : List Message} {ev : Message}
    (hpw : List.Pairwise (fun a b => a.id < b.id) chat)
    (hfresh : ∀ m ∈ chat, m.id < ev.id) :
    List.Pairwise (fun a b => a.id < b.id) (chat ++ [ev]) := by
  rw [List.pairwise_append]
  refine ⟨hpw, List.pairwise_singleton _ _, ?_⟩
  intro a ha b hb
  simp at hb
  subst hb
  exact hfresh a ha

theorem editMessage_id_eq (i : Nat) (t : String) (m : Message) :
    ((if m.id = i then { m with text := t } else m) : Message).id = m.id := by
  by_cases h : m.id = i <;> simp [h]

theorem pairwise_editMessage {chat : List Message} {i : Nat} {t : String}
    (hpw : List.Pairwise (fun a b => a.id < b.id) chat) :
    List.Pairwise (fun a b => a.id < b.id) (editMessage chat i t) := by
  unfold editMessage
  rw [List.pairwise_map]
  refine hpw.imp ?_
  intro a b hab
  rw [editMessage_id_eq, editMessage_id_eq]
  exact hab

theorem pairwise_deleteMessages {chat : List Message} {ids : List Nat}
    (hpw : List.Pairwise (fun a b => a.id < b.id) chat) :
    List.Pairwise (fun a b => a.id < b.id) (deleteMessages chat ids) :=
  List.Pairwise.filter _ hpw

theorem deleteMessages_append (x y : List Message) (ids : List Nat) :
    deleteMessages (x ++ y) ids = deleteMessages x ids ++ deleteMessages y ids :=
  List.filter_append _ _

theorem getLast?_filter_of_getLast {α : Type} {l : List α} {a : α} {p : α → Bool}
    (h : l.getLast? = some a) (hp : p a = true) :
    (l.filter p).getLast? = some a := by
  obtain ⟨ys, rfl⟩ := List.getLast?_eq_some_iff.mp h
  rw [List.filter_append]
  have hs : List.filter p [a] = [a] := by simp [hp]
  rw [hs, List.getLast?_concat]

theorem ChatInv_cases {chat : List Message} (h : ChatInv chat) :
    (∀ m ∈ chat, hasMarker m.text = false) ∨
    (∃ L, chat.getLast? = some L ∧ hasMarker L.text = true ∧ L.out = true ∧
      is_plain_text L = true ∧ safeText (cutMarker L.text) ∧
      ∀ m ∈ chat, hasMarker m.text = true → m = L) := by
  by_cases hm : ∀ m ∈ chat, hasMarker m.text = false
  · exact Or.inl hm
  · right
    push_neg at hm
    obtain ⟨L, hL, hLm⟩ := hm
    have hLm2 : hasMarker L.text = true := by
      cases hx : hasMarker L.text with
      | true => rfl
      | false => exact absurd hx hLm
    obtain ⟨hlast, hout, hplain, hsafe⟩ := (h.2 L hL).1 hLm2
    refine ⟨L, hlast, hLm2, hout, hplain, hsafe, ?_⟩
    intro m hmem hmark
    have hm2 := (h.2 m hmem).1 hmark
    rw [hlast] at hm2
    exact (Option.some.inj hm2.1).symm

theorem findMarked_concat_none {chat : List Message} {ev : Message}
    (hall : ∀ m ∈ chat, hasMarker m.text = false)
    (hsafe : hasMarker ev.text = false) : findMarked (chat ++ [ev]) = none := by
  unfold findMarked
  apply List.find?_eq_none.mpr
  intro x hx
  have hxc : x ∈ chat ++ [ev] :=
    (List.mem_filter.mp (List.mem_reverse.mp (List.mem_of_mem_take hx))).1
  have hxm : hasMarker x.text = false := by
    rcases List.mem_append.mp hxc with h1 | h1
    · exact hall x h1
    · simp at h1
      subst h1
      exact hsafe
  simp [markedPred, hxm]

theorem findMarked_concat_some {chat : List Message} {ev L : Message}
    (hlast : chat.getLast? = some L) (hLout : L.out = true)
    (hLplain : is_plain_text L = true) (hLmark : hasMarker L.text = true)
    (hsafe : hasMarker ev.text = false) :
    findMarked (chat ++ [ev]) = some L := by
  unfold findMarked markedWindow
  rw [List.filter_append]
  have hfl : (chat.filter fun m => m.out).getLast? = some L :=
    getLast?_filter_of_getLast hlast hLout
  obtain ⟨zs, hzs⟩ := List.getLast?_eq_some_iff.mp hfl
  rw [hzs]
  have hpredL : markedPred L = true := by
    simp only [markedPred, hLmark, plain_text_bne hLplain, Bool.and_self]
  have hpredEv : markedPred ev = false := by
    simp [markedPred, hsafe]
  cases hev : ev.out with
  | true =>
    have h1 : List.filter (fun m => m.out) [ev] = [ev] := by simp [hev]
    rw [h1]
    have h2 : ((zs ++ [L]) ++ [ev]).reverse = ev :: L :: zs.reverse := by
      simp
    rw [h2]
    show ((ev :: L :: zs.reverse).take 10).find? markedPred = some L
    show (ev :: L :: zs.reverse.take 8).find? markedPred = some L
    rw [List.find?_cons, hpredEv, List.find?_cons, hpredL]
  | false =>
    have h1 : List.filter (fun m => m.out) [ev] = [] := by simp [hev]
    rw [h1, List.append_nil]
    have h2 : (zs ++ [L]).reverse = L :: zs.reverse := by simp
    rw [h2]
    show (L :: zs.reverse.take 9).find? markedPred = some L
    rw [List.find?_cons, hpredL]

theorem pairwise_of_ids {l l2 : List Message}
    (h : List.Pairwise (fun a b => a.id < b.id) l)
    (hid : l.map (fun m => m.id) = l2.map (fun m => m.id)) :
    List.Pairwise (fun a b => a.id < b.id) l2 := by
  have h1 := List.pairwise_map.mpr h
  rw [hid] at h1
  exact List.pairwise_map.mp h1

theorem ys_unmarked {ys : List Message} {L : Message}
    (hpw : List.Pairwise (fun a b => a.id < b.id) (ys ++ [L]))
    (huniq : ∀ m ∈ ys ++ [L], hasMarker m.text = true → m = L) :
    ∀ m ∈ ys, hasMarker m.text = false := by
  intro m hm
  cases hx : hasMarker m.text with
  | false => rfl
  | true =>
    exfalso
    have heq := huniq m (List.mem_append_left _ hm) hx
    rw [List.pairwise_append] at hpw
    have hlt := hpw.2.2 m hm L (by simp)
    rw [heq] at hlt
    omega

theorem fresh_ne {chat : List Message} {ev : Message}
    (h : ∀ m ∈ chat, m.id < ev.id) : ∀ m ∈ chat, m.id ≠ ev.id :=
  fun m hm => Nat.ne_of_lt (h m hm)

theorem deleteMessages_single_eq_self {l : List Message} {x : Nat}
    (h : ∀ m ∈ l, m.id ≠ x) : deleteMessages l [x] = l :=
  List.filter_eq_self.mpr fun m hm => by simp [h m hm]

theorem deleteMessages_single_self (m : Message) :
    deleteMessages [m] [m.id] = [] := by
  simp [deleteMessages]

theorem editMessage_single_self (m : Message) (t : String) :
    editMessage [m] m.id t = [{ m with text := t }] := by
  simp [editMessage]

theorem ChatInv_strip_concat {chat : List Message} {ev : Message}
    (hInv : ChatInv chat) (hfresh : ∀ m ∈ chat, m.id < ev.id)
    (hsafe : safeText ev.text) :
    ChatInv (strip_marker_from_last_message (chat ++ [ev])) := by
  obtain ⟨hpw, hmsg⟩ := hInv
  have hpwc : List.Pairwise (fun a b => a.id < b.id) (chat ++ [ev]) :=
    pairwise_concat_fresh hpw hfresh
  rcases ChatInv_cases ⟨hpw, hmsg⟩ with hall |
    ⟨L, hlast, hLm, hLout, hLplain, hLsafe, huniq⟩
  · have hf : findMarked (chat ++ [ev]) = none := findMarked_concat_none hall hsafe.1
    unfold strip_marker_from_last_message stripCalls
    rw [hf]
    show ChatInv (chat ++ [ev])
    refine ⟨hpwc, ?_⟩
    intro m hm
    constructor
    · intro hmark
      exfalso
      rcases List.mem_append.mp hm with h1 | h1
      · rw [hall m h1] at hmark
        cases hmark
      · simp at h1
        subst h1
        rw [hsafe.1] at hmark
        cases hmark
    · intro hunm
      rcases List.mem_append.mp hm with h1 | h1
      · exact (hmsg m h1).2 hunm
      · simp at h1
        subst h1
        exact hsafe
  · have hf : findMarked (chat ++ [ev]) = some L :=
      findMarked_concat_some hlast hLout hLplain hLm hsafe.1
    unfold strip_marker_from_last_message stripCalls
    rw [hf]
    show ChatInv (editMessage (chat ++ [ev]) L.id (cutMarker L.text))
    obtain ⟨ys, rfl⟩ := List.getLast?_eq_some_iff.mp hlast
    have hLfresh : ∀ m ∈ ys, m.id ≠ L.id := by
      intro m hm
      rw [List.pairwise_append] at hpw
      have := hpw.2.2 m hm L (by simp)
      omega
    have hevne : ∀ m ∈ [ev], m.id ≠ L.id := by
      intro m hm
      simp at hm
      subst hm
      have := hfresh L (by simp)
      omega
    have hstate : editMessage ((ys ++ [L]) ++ [ev]) L.id (cutMarker L.text)
        = (ys ++ [{ L with text := cutMarker L.text }]) ++ [ev] := by
      rw [editMessage_append, editMessage_append, editMessage_eq_of_ne _ hLfresh,
        editMessage_eq_of_ne _ hevne, editMessage_single_self]
    rw [hstate]
    have hysu : ∀ m ∈ ys, hasMarker m.text = false := ys_unmarked hpw huniq
    constructor
    · refine pairwise_of_ids hpwc ?_
      simp
    · intro m hm
      have hmor : m ∈ ys ∨ m = { L with text := cutMarker L.text } ∨ m = ev := by
        rcases List.mem_append.mp hm with h1 | h1
        · rcases List.mem_append.mp h1 with h2 | h2
          · exact Or.inl h2
          · simp at h2
            exact Or.inr (Or.inl h2)
        · simp at h1
          exact Or.inr (Or.inr h1)
      have hunmarked : hasMarker m.text = false := by
        rcases hmor with h1 | h1 | h1
        · exact hysu m h1
        · subst h1
          exact hLsafe.1
        · subst h1
          exact hsafe.1
      constructor
      · intro hmark
        rw [hunmarked] at hmark
        cases hmark
      · intro _
        rcases hmor with h1 | h1 | h1
        · exact (hmsg m (List.mem_append_left _ h1)).2 (hysu m h1)
        · subst h1
          exact hLsafe
        · subst h1
          exact hsafe

theorem ChatInv_incomingStep {chat : List Message} {ev : Message}
    (hInv : ChatInv chat) (hfresh : ∀ m ∈ chat, m.id < ev.id)
    (hsafe : safeText ev.text) :
    ChatInv (incomingStep chat ev) := by
  show ChatInv (strip_marker_from_last_message (chat ++ [ev]))
  exact ChatInv_strip_concat hInv hfresh hsafe

theorem marked_singleton_inv {ev : Message} (hout : ev.out = true)
    (hplain : is_plain_text ev = true) (hsafe : safeText ev.text)
    {base : List Message}
    (hpw : List.Pairwise (fun a b => a.id < b.id) (base ++ [ev]))
    (hbase : ∀ m ∈ base, hasMarker m.text = false ∧ safeText m.text) :
    ChatInv (base ++ [{ ev with text := ev.text ++ MARKER }]) := by
  constructor
  · refine pairwise_of_ids hpw ?_
    simp
  · intro m hm
    rcases List.mem_append.mp hm with h1 | h1
    · refine ⟨?_, fun _ => (hbase m h1).2⟩
      intro hmark
      rw [(hbase m h1).1] at hmark
      cases hmark
    · simp at h1
      subst h1
      constructor
      · intro _
        refine ⟨List.getLast?_concat _, hout, ?_, ?_⟩
        · exact plain_update_text hplain (append_marker_ne_empty _)
        · show safeText (cutMarker (ev.text ++ MARKER))
          rw [cutMarker_append]
          exact hsafe
      · intro hunm
        rw [hasMarker_append] at hunm
        cases hunm

theorem ChatInv_outgoingStep {chat : List Message} {ev : Message}
    (hInv : ChatInv chat) (hfresh : ∀ m ∈ chat, m.id < ev.id)
    (hout : ev.out = true) (hcmd : isCommandText ev.text = false)
    (hsafe : safeText ev.text) :
    ChatInv (outgoingStep chat ev) := by
  obtain ⟨hpw, hmsg⟩ := hInv
  have hpwc : List.Pairwise (fun a b => a.id < b.id) (chat ++ [ev]) :=
    pairwise_concat_fresh hpw hfresh
  by_cases hplain : is_plain_text ev = true
  · have hprev : prevMessage (chat ++ [ev]) ev.id = chat.getLast? :=
      prevMessage_concat hfresh
    rcases hgl : chat.getLast? with _ | p
    · have hchat : chat = [] := by
        cases chat with
        | nil => rfl
        | cons a l => simp [List.getLast?_concat] at hgl
      subst hchat
      have htrace : autosquash_watcher true false ([] ++ [ev]) ev
          = [Call.edit ev.id (ev.text ++ MARKER)] := by
        rw [hgl] at hprev
        simp only [autosquash_watcher, hcmd, hplain, hprev, Bool.not_true,
          Bool.not_false, Bool.false_eq_true, if_false, if_true]
      show ChatInv (applyCalls ([] ++ [ev]) (autosquash_watcher true false ([] ++ [ev]) ev))
      rw [htrace]
      show ChatInv (editMessage ([] ++ [ev]) ev.id (ev.text ++ MARKER))
      rw [editMessage_concat_self _ (by simp)]
      exact marked_singleton_inv hout hplain hsafe hpwc (by simp)
    · rcases ChatInv_cases ⟨hpw, hmsg⟩ with hall |
        ⟨L, hlast, hLm, hLout, hLplain, hLsafe, huniq⟩
      · -- everything unmarked: the watcher starts a new chain
        have hpmem : p ∈ chat := by
          obtain ⟨ys, rfl⟩ := List.getLast?_eq_some_iff.mp hgl
          simp
        have hpunm : hasMarker p.text = false := hall p hpmem
        have htrace : autosquash_watcher true false (chat ++ [ev]) ev
            = [Call.edit ev.id (ev.text ++ MARKER)] := by
          simp only [autosquash_watcher, hcmd, hplain, hprev, hgl, hpunm,
            Bool.not_true, Bool.not_false, Bool.false_eq_true, if_false, if_true,
            ite_self]
        show ChatInv (applyCalls (chat ++ [ev]) (autosquash_watcher true false (chat ++ [ev]) ev))
        rw [htrace]
        show ChatInv (editMessage (chat ++ [ev]) ev.id (ev.text ++ MARKER))
        rw [editMessage_concat_self _ (fresh_ne hfresh)]
        exact marked_singleton_inv hout hplain hsafe hpwc
          (fun m hm => ⟨hall m hm, (hmsg m hm).2 (hall m hm)⟩)
      · -- open chain at L = p: merge or overflow
        have hpL : p = L := by
          rw [hgl] at hlast
          exact Option.some.inj hlast
        subst hpL
        obtain ⟨ys, hys⟩ := List.getLast?_eq_some_iff.mp hlast
        have hysu : ∀ m ∈ ys, hasMarker m.text = false := by
          rw [hys] at hpw huniq
          exact ys_unmarked hpw huniq
        have hLfresh : ∀ m ∈ ys, m.id ≠ p.id := by
          intro m hm
          rw [hys, List.pairwise_append] at hpw
          have := hpw.2.2 m hm p (by simp)
          omega
        have hevneL : ∀ m ∈ [ev], m.id ≠ p.id := by
          intro m hm
          simp at hm
          subst hm
          have := hfresh p (by rw [hys]; simp)
          omega
        by_cases hlen : (mergedText p.text ev.text).length ≤ 4096
        · -- merge
          have htrace : autosquash_watcher true false (chat ++ [ev]) ev
              = [Call.edit p.id (mergedText p.text ev.text), Call.delete [ev.id]] := by
            simp only [autosquash_watcher, hcmd, hplain, hprev, hgl, hLout, hLplain,
              hLm, Bool.not_true, Bool.not_false, Bool.false_eq_true, Bool.true_and,
              Bool.and_self, if_false, if_true]
            rw [if_pos hlen]
          show ChatInv (applyCalls (chat ++ [ev]) (autosquash_watcher true false (chat ++ [ev]) ev))
          rw [htrace]
          show ChatInv (deleteMessages
            (editMessage (chat ++ [ev]) p.id (mergedText p.text ev.text)) [ev.id])
          rw [hys]
          have hstate : editMessage ((ys ++ [p]) ++ [ev]) p.id (mergedText p.text ev.text)
              = (ys ++ [{ p with text := mergedText p.text ev.text }]) ++ [ev] := by
            rw [editMessage_append, editMessage_append, editMessage_eq_of_ne _ hLfresh,
              editMessage_eq_of_ne _ hevneL, editMessage_single_self]
          rw [hstate]
          have hdel : deleteMessages
              ((ys ++ [{ p with text := mergedText p.text ev.text }]) ++ [ev]) [ev.id]
              = ys ++ [{ p with text := mergedText p.text ev.text }] := by
            apply deleteMessages_concat_self
            intro m hm
            rcases List.mem_append.mp hm with h1 | h1
            · have := hfresh m (by rw [hys]; exact List.mem_append_left _ h1)
              omega
            · simp at h1
              subst h1
              have := hfresh p (by rw [hys]; simp)
              show p.id ≠ ev.id
              omega
          rw [hdel]
          constructor
          · refine pairwise_of_ids (show List.Pairwise (fun a b => a.id < b.id) (ys ++ [p]) by
              rw [hys] at hpw; exact hpw) ?_
            simp
          · intro m hm
            rcases List.mem_append.mp hm with h1 | h1
            · refine ⟨?_, fun _ => (hmsg m (by rw [hys]; exact List.mem_append_left _ h1)).2 (hysu m h1)⟩
              intro hmark
              rw [hysu m h1] at hmark
              cases hmark
            · simp at h1
              subst h1
              constructor
              · intro _
                refine ⟨List.getLast?_concat _, hLout, ?_, ?_⟩
                · exact plain_update_text hLplain (append_marker_ne_empty _)
                · show safeText (cutMarker (cutMarker p.text ++ "\n" ++ ev.text ++ MARKER))
                  rw [cutMarker_append]
                  exact safe_join hsafe (cutMarker p.text)
              · intro hunm
                have : hasMarker (mergedText p.text ev.text) = true := hasMarker_append _
                rw [this] at hunm
                cases hunm
        · -- overflow: close old chain, start a new one at ev
          have htrace : autosquash_watcher true false (chat ++ [ev]) ev
              = [Call.edit p.id (cutMarker p.text),
                 Call.edit ev.id (ev.text ++ MARKER)] := by
            simp only [autosquash_watcher, hcmd, hplain, hprev, hgl, hLout, hLplain,
              hLm, Bool.not_true, Bool.not_false, Bool.false_eq_true, Bool.true_and,
              Bool.and_self, if_false, if_true]
            rw [if_neg hlen]
          show ChatInv (applyCalls (chat ++ [ev]) (autosquash_watcher true false (chat ++ [ev]) ev))
          rw [htrace]
          show ChatInv (editMessage
            (editMessage (chat ++ [ev]) p.id (cutMarker p.text)) ev.id (ev.text ++ MARKER))
          rw [hys]
          have hstate : editMessage ((ys ++ [p]) ++ [ev]) p.id (cutMarker p.text)
              = (ys ++ [{ p with text := cutMarker p.text }]) ++ [ev] := by
            rw [editMessage_append, editMessage_append, editMessage_eq_of_ne _ hLfresh,
              editMessage_eq_of_ne _ hevneL, editMessage_single_self]
          rw [hstate]
          have hstate2 : editMessage ((ys ++ [{ p with text := cutMarker p.text }]) ++ [ev])
              ev.id (ev.text ++ MARKER)
              = (ys ++ [{ p with text := cutMarker p.text }]) ++
                  [{ ev with text := ev.text ++ MARKER }] := by
            apply editMessage_concat_self
            intro m hm
            rcases List.mem_append.mp hm with h1 | h1
            · have := hfresh m (by rw [hys]; exact List.mem_append_left _ h1)
              omega
            · simp at h1
              subst h1
              have := hfresh p (by rw [hys]; simp)
              show p.id ≠ ev.id
              omega
          rw [hstate2]
          have hpwbase : List.Pairwise (fun a b => a.id < b.id)
              ((ys ++ [{ p with text := cutMarker p.text }]) ++ [ev]) := by
            refine pairwise_of_ids (show List.Pairwise (fun a b => a.id < b.id)
              ((ys ++ [p]) ++ [ev]) by rw [hys] at hpwc; exact hpwc) ?_
            simp
          refine marked_singleton_inv hout hplain hsafe hpwbase ?_
          intro m hm
          rcases List.mem_append.mp hm with h1 | h1
          · exact ⟨hysu m h1,
              (hmsg m (by rw [hys]; exact List.mem_append_left _ h1)).2 (hysu m h1)⟩
          · simp at h1
            subst h1
            exact ⟨hLsafe.1, hLsafe⟩
  · -- the new message is not plain: boundary, strip only
    have hplainf : is_plain_text ev = false := Bool.eq_false_iff.mpr hplain
    have htrace : autosquash_watcher true false (chat ++ [ev]) ev
        = stripCalls (chat ++ [ev]) := by
      simp only [autosquash_watcher, hcmd, hplainf, Bool.not_true, Bool.not_false,
        Bool.false_eq_true, if_false, if_true]
    show ChatInv (applyCalls (chat ++ [ev]) (autosquash_watcher true false (chat ++ [ev]) ev))
    rw [htrace]
    exact ChatInv_strip_concat ⟨hpw, hmsg⟩ hfresh hsafe

theorem chat_id_inj : ∀ {chat : List Message},
    List.Pairwise (fun a b => a.id < b.id) chat →
    ∀ a ∈ chat, ∀ b ∈ chat, a.id = b.id → a = b := by
  intro chat
  induction chat with
  | nil => intro _ a ha; simp at ha
  | cons m l ih =>
    intro hpw a ha b hb hid
    rw [List.pairwise_cons] at hpw
    rcases List.mem_cons.mp ha with rfl | ha2 <;> rcases List.mem_cons.mp hb with rfl | hb2
    · rfl
    · have := hpw.1 b hb2
      omega
    · have := hpw.1 a ha2
      omega
    · exact ih hpw.2 a ha2 b hb2 hid

theorem collectMessages_subset {c : List Message} {cmdId : Nat} {nArg : Option Nat}
    {collected : List Message} (h : collectMessages c cmdId nArg = some collected) :
    ∀ m ∈ collected, m ∈ c ∧ m.id < cmdId := by
  intro m hm
  match nArg, h with
  | some n, h =>
    simp only [collectMessages] at h
    by_cases hn : n < 1
    · rw [if_pos hn] at h
      cases h
    · rw [if_neg hn] at h
      by_cases hall : (iterMessages c cmdId true n).all is_plain_text = true
      · rw [if_pos hall] at h
        cases h
        have h1 := List.mem_filter.mp (List.mem_reverse.mp (List.mem_of_mem_take hm))
        refine ⟨h1.1, ?_⟩
        have h2 := h1.2
        rw [Bool.and_eq_true] at h2
        exact of_decide_eq_true h2.1
      · rw [if_neg hall] at h
        cases h
  | none, h =>
    simp only [collectMessages] at h
    cases h
    have hm2 := (List.takeWhile_sublist _).subset hm
    have h1 := List.mem_filter.mp (List.mem_reverse.mp (List.mem_of_mem_take hm2))
    refine ⟨h1.1, ?_⟩
    have h2 := h1.2
    rw [Bool.and_eq_true] at h2
    exact of_decide_eq_true h2.1

theorem contains_true_iff {ids : List Nat} {x : Nat} :
    ids.contains x = true ↔ x ∈ ids := List.elem_iff

theorem deleteMessages_single_keep {m : Message} {ids : List Nat}
    (h : ids.contains m.id = false) : deleteMessages [m] ids = [m] := by
  simp [deleteMessages]
  intro hmem
  rw [contains_true_iff.mpr hmem] at h
  cases h

theorem deleteMessages_single_drop {m : Message} {ids : List Nat}
    (h : ids.contains m.id = true) : deleteMessages [m] ids = [] := by
  simp [deleteMessages]
  exact contains_true_iff.mp h

theorem mem_deleteMessages_dest {l : List Message} {ids : List Nat} {m : Message}
    (h : m ∈ deleteMessages l ids) : m ∈ l ∧ ids.contains m.id = false := by
  have h2 := List.mem_filter.mp h
  refine ⟨h2.1, ?_⟩
  have h3 := h2.2
  cases hx : ids.contains m.id with
  | false => rfl
  | true => rw [hx] at h3; cases h3

theorem mem_editMessage_dest {l : List Message} {i : Nat} {t : String} {m : Message}
    (h : m ∈ editMessage l i t) :
    ∃ m0 ∈ l, m = if m0.id = i then { m0 with text := t } else m0 := by
  obtain ⟨m0, hm0, hf⟩ := List.mem_map.mp h
  exact ⟨m0, hm0, hf.symm⟩

theorem editMessage_self_text : ∀ {l : List Message} {i : Nat} {t : String},
    (∀ m ∈ l, m.id = i → m.text = t) → editMessage l i t = l := by
  intro l
  induction l with
  | nil => intro i t _; rfl
  | cons m l2 ih =>
    intro i t h
    show (if m.id = i then { m with text := t } else m) :: editMessage l2 i t = m :: l2
    rw [ih fun x hx => h x (List.mem_cons_of_mem _ hx)]
    by_cases hm : m.id = i
    · rw [if_pos hm, ← h m (by simp) hm]
    · rw [if_neg hm]

theorem ChatInv_squashStep {chat : List Message} {cmd : Message} {nArg : Option Nat}
    (hInv : ChatInv chat) (hfresh : ∀ m ∈ chat, m.id < cmd.id) :
    ChatInv (squashStep chat cmd nArg) := by
  obtain ⟨hpw, hmsg⟩ := hInv
  have hpwc : List.Pairwise (fun a b => a.id < b.id) (chat ++ [cmd]) :=
    pairwise_concat_fresh hpw hfresh
  show ChatInv (applyCalls (chat ++ [cmd]) (squash_handler false (chat ++ [cmd]) cmd.id nArg))
  cases hc : collectMessages (chat ++ [cmd]) cmd.id nArg with
  | none =>
    have htrace : squash_handler false (chat ++ [cmd]) cmd.id nArg
        = [Call.delete [cmd.id]] := by
      unfold squash_handler
      rw [hc]
      rfl
    rw [htrace]
    show ChatInv (deleteMessages (chat ++ [cmd]) [cmd.id])
    rw [deleteMessages_concat_self (fresh_ne hfresh)]
    exact ⟨hpw, hmsg⟩
  | some collected =>
    have hsub := collectMessages_subset hc
    have hsubchat : ∀ m ∈ collected, m ∈ chat := by
      intro m hm
      rcases List.mem_append.mp (hsub m hm).1 with h1 | h1
      · exact h1
      · exfalso
        simp at h1
        have h2 := (hsub m hm).2
        rw [h1] at h2
        omega
    have htrace2 : squash_handler false (chat ++ [cmd]) cmd.id nArg
        = squashCollected false collected cmd.id := by
      unfold squash_handler
      rw [hc]
    rw [htrace2]
    cases hrev : collected.reverse with
    | nil =>
      have htrace : squashCollected false collected cmd.id = [Call.delete [cmd.id]] := by
        unfold squashCollected
        rw [hrev]
        rfl
      rw [htrace]
      show ChatInv (deleteMessages (chat ++ [cmd]) [cmd.id])
      rw [deleteMessages_concat_self (fresh_ne hfresh)]
      exact ⟨hpw, hmsg⟩
    | cons target rest =>
      have htmem : target ∈ collected := by
        have h1 : target ∈ collected.reverse := by
          rw [hrev]
          simp
        exact List.mem_reverse.mp h1
      have htchat : target ∈ chat := hsubchat target htmem
      have htid : target.id < cmd.id := hfresh target htchat
      have hcombsafe : safeText (combinedOf collected) := by
        apply joinTexts_safe
        intro s hs
        obtain ⟨m, hmr, rfl⟩ := List.mem_map.mp hs
        have hmc : m ∈ chat := hsubchat m (List.mem_reverse.mp hmr)
        cases hx : hasMarker m.text with
        | false =>
          rw [stripMarker_of_not_marked hx]
          exact (hmsg m hmc).2 hx
        | true =>
          have hcut := ((hmsg m hmc).1 hx).2.2.2
          have hse : stripMarker m.text = cutMarker m.text := by
            simp [stripMarker, hx]
          rw [hse]
          exact hcut
      by_cases hlen : 4096 < (combinedOf collected).length
      · have htrace : squashCollected false collected cmd.id = [Call.delete [cmd.id]] := by
          unfold squashCollected
          rw [hrev]
          show (if 4096 < (combinedOf collected).length then _ else _) = _
          rw [if_pos hlen]
          rfl
        rw [htrace]
        show ChatInv (deleteMessages (chat ++ [cmd]) [cmd.id])
        rw [deleteMessages_concat_self (fresh_ne hfresh)]
        exact ⟨hpw, hmsg⟩
      · have hcmdin : ((rest.map fun m => m.id) ++ [cmd.id]).contains cmd.id = true :=
          contains_true_iff.mpr (by simp)
        have htrace : squashCollected false collected cmd.id
            = (if combinedOf collected = target.text then []
               else [Call.edit target.id (combinedOf collected)]) ++
              [Call.delete ((rest.map fun m => m.id) ++ [cmd.id])] := by
          unfold squashCollected
          rw [hrev]
          show (if 4096 < (combinedOf collected).length then _ else _) = _
          rw [if_neg hlen]
          rfl
        rw [htrace]
        have hstate : applyCalls (chat ++ [cmd])
            ((if combinedOf collected = target.text then []
              else [Call.edit target.id (combinedOf collected)]) ++
             [Call.delete ((rest.map fun m => m.id) ++ [cmd.id])])
            = deleteMessages
                (editMessage (chat ++ [cmd]) target.id (combinedOf collected))
                ((rest.map fun m => m.id) ++ [cmd.id]) := by
          by_cases heq : combinedOf collected = target.text
          · rw [if_pos heq]
            show deleteMessages (chat ++ [cmd]) _ = _
            congr 1
            symm
            apply editMessage_self_text
            intro m hm hmid
            have h3 := chat_id_inj hpwc m hm target (List.mem_append_left _ htchat) hmid
            rw [h3, heq]
          · rw [if_neg heq]
            rfl
        rw [hstate]
        constructor
        · exact pairwise_deleteMessages (pairwise_editMessage hpwc)
        · intro m2 hm2
          obtain ⟨hm2e, hm2pred⟩ := mem_deleteMessages_dest hm2
          obtain ⟨m0, hm0c, hm0eq⟩ := mem_editMessage_dest hm2e
          by_cases hm0t : m0.id = target.id
          · rw [if_pos hm0t] at hm0eq
            have hm2unm : hasMarker m2.text = false := by
              rw [hm0eq]
              exact hcombsafe.1
            have hm2safe : safeText m2.text := by
              rw [hm0eq]
              exact hcombsafe
            refine ⟨?_, fun _ => hm2safe⟩
            intro hmark
            rw [hm2unm] at hmark
            cases hmark
          · rw [if_neg hm0t] at hm0eq
            subst hm0eq
            have hm0chat : m2 ∈ chat := by
              rcases List.mem_append.mp hm0c with h1 | h1
              · exact h1
              · exfalso
                simp at h1
                rw [h1] at hm2pred
                rw [hcmdin] at hm2pred
                cases hm2pred
            constructor
            · intro hmark
              obtain ⟨hlast, hLout, hLplain, hLsafe⟩ := (hmsg m2 hm0chat).1 hmark
              refine ⟨?_, hLout, hLplain, hLsafe⟩
              obtain ⟨ys, hys⟩ := List.getLast?_eq_some_iff.mp hlast
              have hm0ne : ∀ x ∈ [m2], x.id ≠ target.id := by
                intro x hx
                simp at hx
                subst hx
                exact hm0t
              have hcmdne : ∀ x ∈ [cmd], x.id ≠ target.id := by
                intro x hx
                simp at hx
                subst hx
                omega
              have hstate2 : editMessage (chat ++ [cmd]) target.id (combinedOf collected)
                  = (editMessage ys target.id (combinedOf collected) ++ [m2]) ++ [cmd] := by
                rw [hys, editMessage_append, editMessage_append,
                  editMessage_eq_of_ne _ hm0ne, editMessage_eq_of_ne _ hcmdne]
              rw [hstate2, deleteMessages_append, deleteMessages_append,
                deleteMessages_single_keep hm2pred,
                deleteMessages_single_drop hcmdin, List.append_nil,
                List.getLast?_concat]
            · intro hunm
              cases hx : hasMarker m2.text with
              | false => exact (hmsg m2 hm0chat).2 hx
              | true =>
                rw [hx] at hunm
                cases hunm

theorem strip_concat_shape {chat : List Message} {ev : Message}
    (hInv : ChatInv chat) (hfresh : ∀ m ∈ chat, m.id < ev.id)
    (hsafe : safeText ev.text) :
    ∃ X, strip_marker_from_last_message (chat ++ [ev]) = X ++ [ev] ∧
      X.map (fun m => m.id) = chat.map (fun m => m.id) ∧
      ∀ m ∈ X, hasMarker m.text = false ∧ safeText m.text := by
  obtain ⟨hpw, hmsg⟩ := hInv
  rcases ChatInv_cases ⟨hpw, hmsg⟩ with hall |
    ⟨L, hlast, hLm, hLout, hLplain, hLsafe, huniq⟩
  · have hf := findMarked_concat_none hall hsafe.1
    unfold strip_marker_from_last_message stripCalls
    rw [hf]
    exact ⟨chat, rfl, rfl, fun m hm => ⟨hall m hm, (hmsg m hm).2 (hall m hm)⟩⟩
  · have hf := findMarked_concat_some hlast hLout hLplain hLm hsafe.1
    unfold strip_marker_from_last_message stripCalls
    rw [hf]
    obtain ⟨ys, rfl⟩ := List.getLast?_eq_some_iff.mp hlast
    have hLfresh : ∀ m ∈ ys, m.id ≠ L.id := by
      intro m hm
      rw [List.pairwise_append] at hpw
      have := hpw.2.2 m hm L (by simp)
      omega
    have hevne : ∀ m ∈ [ev], m.id ≠ L.id := by
      intro m hm
      simp at hm
      subst hm
      have := hfresh L (by simp)
      omega
    have hstate : editMessage ((ys ++ [L]) ++ [ev]) L.id (cutMarker L.text)
        = (ys ++ [{ L with text := cutMarker L.text }]) ++ [ev] := by
      rw [editMessage_append, editMessage_append, editMessage_eq_of_ne _ hLfresh,
        editMessage_eq_of_ne _ hevne, editMessage_single_self]
    have hysu : ∀ m ∈ ys, hasMarker m.text = false := ys_unmarked hpw huniq
    show ∃ X, editMessage ((ys ++ [L]) ++ [ev]) L.id (cutMarker L.text) = X ++ [ev] ∧
      X.map (fun m => m.id) = (ys ++ [L]).map (fun m => m.id) ∧
      ∀ m ∈ X, hasMarker m.text = false ∧ safeText m.text
    refine ⟨ys ++ [{ L with text := cutMarker L.text }], hstate, by simp, ?_⟩
    intro m hm
    rcases List.mem_append.mp hm with h1 | h1
    · exact ⟨hysu m h1, (hmsg m (List.mem_append_left _ h1)).2 (hysu m h1)⟩
    · simp at h1
      subst h1
      exact ⟨hLsafe.1, hLsafe⟩

theorem ChatInv_toggleOffStep {chat : List Message} {cmd : Message}
    (hInv : ChatInv chat) (hfresh : ∀ m ∈ chat, m.id < cmd.id) :
    ChatInv (toggleOffStep chat cmd) := by
  have hedit : editMessage (chat ++ [cmd]) cmd.id STATUS_OFF
      = chat ++ [{ cmd with text := STATUS_OFF }] :=
    editMessage_concat_self _ (fresh_ne hfresh)
  show ChatInv (deleteMessages
    (strip_marker_from_last_message (editMessage (chat ++ [cmd]) cmd.id STATUS_OFF))
    [cmd.id])
  rw [hedit]
  obtain ⟨X, hX, hXid, hXsafe⟩ :=
    strip_concat_shape hInv
      (show ∀ m ∈ chat, m.id < ({ cmd with text := STATUS_OFF } : Message).id from hfresh)
      (show safeText STATUS_OFF by decide)
  rw [hX]
  have hXfresh : ∀ m ∈ X, m.id ≠ ({ cmd with text := STATUS_OFF } : Message).id := by
    intro m hm
    have hmm : m.id ∈ X.map (fun m => m.id) := List.mem_map_of_mem _ hm
    rw [hXid] at hmm
    obtain ⟨m0, hm0, hid⟩ := List.mem_map.mp hmm
    show m.id ≠ cmd.id
    rw [← hid]
    exact Nat.ne_of_lt (hfresh m0 hm0)
  show ChatInv (deleteMessages (X ++ [{ cmd with text := STATUS_OFF }])
    [({ cmd with text := STATUS_OFF } : Message).id])
  rw [deleteMessages_concat_self hXfresh]
  constructor
  · exact pairwise_of_ids hInv.1 hXid.symm
  · intro m hm
    refine ⟨?_, fun _ => (hXsafe m hm).2⟩
    intro hmark
    rw [(hXsafe m hm).1] at hmark
    cases hmark

theorem ChatInv_toggleOnStep {chat : List Message} {cmd : Message}
    (hInv : ChatInv chat) (hfresh : ∀ m ∈ chat, m.id < cmd.id) :
    ChatInv (toggleOnStep chat cmd) := by
  show ChatInv (deleteMessages (editMessage (chat ++ [cmd]) cmd.id STATUS_ON) [cmd.id])
  rw [editMessage_concat_self _ (fresh_ne hfresh)]
  show ChatInv (deleteMessages (chat ++ [{ cmd with text := STATUS_ON }])
    [({ cmd with text := STATUS_ON } : Message).id])
  rw [deleteMessages_concat_self
    (show ∀ m ∈ chat, m.id ≠ ({ cmd with text := STATUS_ON } : Message).id from
      fresh_ne hfresh)]
  exact hInv

theorem ChatInv_reach {P : String → Prop} (hP : ∀ t, P t → safeText t) :
    ∀ {chat : List Message}, Reach P chat → ChatInv chat := by
  intro chat h
  induction h with
  | init => exact ⟨List.Pairwise.nil, by simp⟩
  | outgoing hr hfresh hout hcmd hp ih =>
    exact ChatInv_outgoingStep ih hfresh hout hcmd (hP _ hp)
  | incoming hr hfresh hin hp ih =>
    exact ChatInv_incomingStep ih hfresh (hP _ hp)
  | squash hr hfresh ih =>
    exact ChatInv_squashStep ih hfresh
  | toggleOff hr hfresh hcout ih =>
    exact ChatInv_toggleOffStep ih hfresh
  | toggleOn hr hfresh ih =>
    exact ChatInv_toggleOnStep ih hfresh

/-! ### Claim C3: the marker invariant -/

/-- C3 (counterexample): the marker invariant fails as stated.  The
text `">_"` of an ordinary message combines with the newline separator
of a merge to form the reserved marker inside a message body: sending
"a" then ">_" (merged into `"a\n>_\n>_"`), then receiving an incoming
boundary (one marker stripped, leaving `"a\n>_"`), then sending "b"
(fresh chain `"b\n>_"`) reaches a state in which TWO messages of the
tail carry the marker suffix, the older of which is not the most
recent message of any open chain. -/
theorem C3_counterexample :
    Reach (fun _ => True)
      [⟨1, true, "a\n>_", false, false⟩, ⟨3, false, "ok", false, false⟩,
       ⟨4, true, "b\n>_", false, false⟩] ∧
    (([⟨1, true, "a\n>_", false, false⟩, ⟨3, false, "ok", false, false⟩,
       ⟨4, true, "b\n>_", false, false⟩] : List Message).filter
        fun m => hasMarker m.text).length = 2 := by
  constructor
  · have h0 : Reach (fun _ => True) [] := Reach.init
    have e1 : outgoingStep [] ⟨1, true, "a", false, false⟩
        = [⟨1, true, "a\n>_", false, false⟩] := by decide
    have h1 := e1 ▸ Reach.outgoing h0 (by decide) rfl (by decide) trivial
    have e2 : outgoingStep [⟨1, true, "a\n>_", false, false⟩] ⟨2, true, ">_", false, false⟩
        = [⟨1, true, "a\n>_\n>_", false, false⟩] := by decide
    have h2 := e2 ▸ Reach.outgoing h1 (by decide) rfl (by decide) trivial
    have e3 : incomingStep [⟨1, true, "a\n>_\n>_", false, false⟩]
        ⟨3, false, "ok", false, false⟩
        = [⟨1, true, "a\n>_", false, false⟩, ⟨3, false, "ok", false, false⟩] := by decide
    have h3 := e3 ▸ Reach.incoming h2 (by decide) rfl trivial
    have e4 : outgoingStep
        [⟨1, true, "a\n>_", false, false⟩, ⟨3, false, "ok", false, false⟩]
        ⟨4, true, "b", false, false⟩
        = [⟨1, true, "a\n>_", false, false⟩, ⟨3, false, "ok", false, false⟩,
           ⟨4, true, "b\n>_", false, false⟩] := by decide
    exact e4 ▸ Reach.outgoing h3 (by decide) rfl (by decide) trivial
  · decide

/-- C3 (amended): at every state reachable by the engine's operations
in which the text of each arriving message is safe for the marker
protocol (it neither ends with the reserved marker string nor equals
`">_"`), at most one message carries the marker suffix, and a message
carrying it is the most recent message of the conversation, locally
authored and plain — the open end of the current chain. -/
theorem C3_theorem (chat : List Message) (h : Reach safeText chat) :
    ((chat.filter fun m => hasMarker m.text).length ≤ 1) ∧
    ∀ m ∈ chat, hasMarker m.text = true →
      chat.getLast? = some m ∧ m.out = true ∧ is_plain_text m = true := by
  have hInv := ChatInv_reach (fun _ ht => ht) h
  obtain ⟨hpw, hmsg⟩ := hInv
  constructor
  · by_contra hcount
    push_neg at hcount
    rcases hfl : chat.filter (fun m => hasMarker m.text) with _ | ⟨a, _ | ⟨b, rest⟩⟩
    · rw [hfl] at hcount
      simp at hcount
    · rw [hfl] at hcount
      simp at hcount
    · have hmema : a ∈ chat ∧ hasMarker a.text = true := by
        have hx : a ∈ chat.filter (fun m => hasMarker m.text) := by
          rw [hfl]
          simp
        exact ⟨(List.mem_filter.mp hx).1, (List.mem_filter.mp hx).2⟩
      have hmemb : b ∈ chat ∧ hasMarker b.text = true := by
        have hx : b ∈ chat.filter (fun m => hasMarker m.text) := by
          rw [hfl]
          simp
        exact ⟨(List.mem_filter.mp hx).1, (List.mem_filter.mp hx).2⟩
      have ha := ((hmsg a hmema.1).1 hmema.2).1
      have hb := ((hmsg b hmemb.1).1 hmemb.2).1
      have hab : a = b := by
        rw [ha] at hb
        exact Option.some.inj hb
      have hpwf := List.Pairwise.filter (fun m => hasMarker m.text) hpw
      rw [hfl, List.pairwise_cons] at hpwf
      have hlt := hpwf.1 b (by simp)
      rw [hab] at hlt
      omega
  · intro m hm hmark
    have h1 := (hmsg m hm).1 hmark
    exact ⟨h1.1, h1.2.1, h1.2.2.1⟩

/-- C3 witness: the amended invariant at the concrete reachable state
obtained by sending one safe message with autosquash enabled. -/
theorem C3_witness :
    ((([⟨1, true, "a\n>_", false, false⟩] : List Message).filter
        fun m => hasMarker m.text).length ≤ 1) ∧
    ∀ m ∈ ([⟨1, true, "a\n>_", false, false⟩] : List Message),
      hasMarker m.text = true →
        ([⟨1, true, "a\n>_", false, false⟩] : List Message).getLast? = some m ∧
          m.out = true ∧ is_plain_text m = true := by
  apply C3_theorem
  have e1 : outgoingStep [] ⟨1, true, "a", false, false⟩
      = [⟨1, true, "a\n>_", false, false⟩] := by decide
  exact e1 ▸ Reach.outgoing Reach.init (by decide) rfl (by decide) (by decide)
